import Mathlib

/-!
Verification of the Feline rectilinear Steiner tree core
(`src/common/route/feline_stree.cc`) against its natural-language
specification.

The C++ source is shallowly embedded: pure functions become Lean
functions, the stateful algorithm passes become explicit state-passing
functions, fallible operations (`NPNR_ASSERT`, `dict::at`) return
`Except`/`Option`, loops become fuel-indexed structural recursion, and
the 32-bit floating point costs are modelled with exact rationals (all
concrete inputs used below only involve values that float arithmetic
represents exactly).

The auxiliary data types `GCell`, `BoundingBox` and the `TopoSort`
utility live in headers (`feline_internal.h`, `util.h`) that are not
part of the source tree given here; they are modelled from the spec and
flagged as such in their doc comments.
-/

namespace Feline

/-- Modelled from the spec: a `GCell` is an integer lattice point
`(x, y)` (16-bit signed in the implementation; modelled with `Int`,
with the int16 extremes `32767` / `-32768` appearing literally where
the code uses `std::numeric_limits<int16_t>`). -/
structure GCell where
  x : Int
  y : Int
deriving DecidableEq, Repr

/-- Modelled from the spec: the default-constructed `GCell()` sentinel
denoting absence ("conventionally `(-1, -1)`"). -/
def GCell.nullCell : GCell := ⟨-1, -1⟩

/-- Modelled from the spec: the strict `GCell` ordering.  §4.1 of the
spec requires `prev_y`/`next_y` (implemented via `prev_cell (0, y)` and
`next_cell (MAX_X, y)`) to step through populated *rows*, which forces
the lexicographic order to be major in `y` and minor in `x`. -/
def GCell.ltb (a b : GCell) : Bool := a.y < b.y || (a.y = b.y && a.x < b.x)

/-- Non-strict counterpart of `GCell.ltb`. -/
def GCell.leb (a b : GCell) : Bool := a.y < b.y || (a.y = b.y && a.x ≤ b.x)

/-- Manhattan distance `|Δx| + |Δy|` between two cells. -/
def GCell.mdist (a b : GCell) : Int := (a.x - b.x).natAbs + (a.y - b.y).natAbs

theorem GCell.ltb_iff (a b : GCell) :
    a.ltb b = true ↔ (a.y < b.y ∨ (a.y = b.y ∧ a.x < b.x)) := by
  simp [GCell.ltb]

theorem GCell.leb_iff (a b : GCell) :
    a.leb b = true ↔ (a.y < b.y ∨ (a.y = b.y ∧ a.x ≤ b.x)) := by
  simp [GCell.leb]

theorem GCell.ltb_irrefl (a : GCell) : a.ltb a = false := by
  simp [GCell.ltb]

theorem GCell.not_ltb_of_ltb {a b : GCell} (h : a.ltb b = true) : b.ltb a = false := by
  rw [GCell.ltb_iff] at h
  rcases h with h | ⟨hy, hx⟩ <;> simp [GCell.ltb] <;> omega

theorem GCell.ltb_trans {a b c : GCell} (hab : a.ltb b = true) (hbc : b.ltb c = true) :
    a.ltb c = true := by
  rw [GCell.ltb_iff] at hab hbc ⊢
  rcases hab with h | ⟨hy, hx⟩ <;> rcases hbc with h' | ⟨hy', hx'⟩ <;> omega

theorem GCell.leb_trans {a b c : GCell} (hab : a.leb b = true) (hbc : b.leb c = true) :
    a.leb c = true := by
  rw [GCell.leb_iff] at hab hbc ⊢
  rcases hab with h | ⟨hy, hx⟩ <;> rcases hbc with h' | ⟨hy', hx'⟩ <;> omega

theorem GCell.leb_total (a b : GCell) : a.leb b = true ∨ b.leb a = true := by
  rw [GCell.leb_iff, GCell.leb_iff]
  omega

theorem GCell.ltb_of_ne_of_leb {a b : GCell} (hne : a ≠ b) (h : a.leb b = true) :
    a.ltb b = true := by
  rw [GCell.leb_iff] at h
  rw [GCell.ltb_iff]
  rcases h with h | ⟨hy, hx⟩
  · exact Or.inl h
  · refine Or.inr ⟨hy, lt_of_le_of_ne hx ?_⟩
    intro hx'
    exact hne (by cases a; cases b; simp_all)

theorem GCell.eq_of_leb_of_leb {a b : GCell} (h1 : a.leb b = true) (h2 : b.leb a = true) :
    a = b := by
  rw [GCell.leb_iff] at h1 h2
  have hx : a.x = b.x := by omega
  have hy : a.y = b.y := by omega
  cases a; cases b; simp_all

theorem GCell.leb_refl (a : GCell) : a.leb a = true := by
  simp [GCell.leb]

theorem GCell.leb_ltb_trans {a b c : GCell} (hab : a.leb b = true) (hbc : b.ltb c = true) :
    a.ltb c = true := by
  rw [GCell.leb_iff] at hab
  rw [GCell.ltb_iff] at hbc ⊢
  omega

theorem GCell.ltb_leb_trans {a b c : GCell} (hab : a.ltb b = true) (hbc : b.leb c = true) :
    a.ltb c = true := by
  rw [GCell.ltb_iff] at hab ⊢
  rw [GCell.leb_iff] at hbc
  omega

theorem GCell.ltb_of_not_leb {a b : GCell} (h : a.leb b = false) : b.ltb a = true := by
  rw [GCell.ltb_iff]
  have := (GCell.leb_iff a b).not.mp (by simp [h])
  omega

theorem GCell.leb_of_not_ltb {a b : GCell} (h : a.ltb b = false) : b.leb a = true := by
  rw [GCell.leb_iff]
  have := (GCell.ltb_iff a b).not.mp (by simp [h])
  omega

theorem GCell.leb_of_ltb {a b : GCell} (h : a.ltb b = true) : a.leb b = true := by
  rw [GCell.ltb_iff] at h
  rw [GCell.leb_iff]
  omega

/-! ## GCellSet (`feline_stree.cc` lines 38-93)

An append-then-sort container of grid cells.  The C++ queries assert
`!dirty`; the theorems below carry the corresponding sortedness
hypotheses explicitly instead of threading an abort through every
query. -/

structure GCellSet where
  cells : List GCell
  dirty : Bool
deriving DecidableEq, Repr

def GCellSet.empty : GCellSet := ⟨[], false⟩

def GCellSet.clear (_s : GCellSet) : GCellSet := ⟨[], false⟩

def GCellSet.push (s : GCellSet) (cell : GCell) : GCellSet := ⟨s.cells ++ [cell], true⟩

/-- `std::sort` on the cell list.  The `GCell` order is total and
antisymmetric, so the sorted permutation of a list is unique and any
correct sorting algorithm is a faithful model of `std::sort`;
`List.insertionSort` is used because it is structurally recursive.
Note the C++ `do_sort` does *not* deduplicate. -/
def GCellSet.do_sort (s : GCellSet) : GCellSet :=
  ⟨List.insertionSort (fun a b => a.leb b = true) s.cells, false⟩

/-- The binary-search loop of `GCellSet::prev_cell` (`idx = (b + e) / 2`
is inlined): on exit `b` is the first index whose element is not `< c`
(a lower bound).  The interval length `e - b` strictly decreases at
every iteration, so running the loop on fuel `≥ e - b` computes the
C++ loop exactly; fuel keeps the recursion structural. -/
def lowerBoundLoop (cells : List GCell) (c : GCell) : Nat → Nat → Nat → Nat
  | 0, b, _ => b
  | fuel + 1, b, e =>
    if b < e then
      if (cells.getD ((b + e) / 2) GCell.nullCell).ltb c then
        lowerBoundLoop cells c fuel ((b + e) / 2 + 1) e
      else
        lowerBoundLoop cells c fuel b ((b + e) / 2)
    else b

/-- The binary-search loop of `GCellSet::next_cell`: on exit `b` is the
first index whose element is not `<= c` (an upper bound). -/
def upperBoundLoop (cells : List GCell) (c : GCell) : Nat → Nat → Nat → Nat
  | 0, b, _ => b
  | fuel + 1, b, e =>
    if b < e then
      if (cells.getD ((b + e) / 2) GCell.nullCell).leb c then
        upperBoundLoop cells c fuel ((b + e) / 2 + 1) e
      else
        upperBoundLoop cells c fuel b ((b + e) / 2)
    else b

/-- `GCellSet::prev_cell` (the C++ local `b` is written out): note the
faithful quirk that the sentinel is returned (rather than the last
element) whenever the lower bound lands at `cells.size()`, i.e.
whenever no element `>= c` exists. -/
def GCellSet.prev_cell (s : GCellSet) (c : GCell) : GCell :=
  if lowerBoundLoop s.cells c (s.cells.length + 1) 0 s.cells.length < s.cells.length ∧
      0 < lowerBoundLoop s.cells c (s.cells.length + 1) 0 s.cells.length then
    s.cells.getD (lowerBoundLoop s.cells c (s.cells.length + 1) 0 s.cells.length - 1)
      GCell.nullCell
  else GCell.nullCell

/-- `GCellSet::next_cell`. -/
def GCellSet.next_cell (s : GCellSet) (c : GCell) : GCell :=
  if upperBoundLoop s.cells c (s.cells.length + 1) 0 s.cells.length < s.cells.length then
    s.cells.getD (upperBoundLoop s.cells c (s.cells.length + 1) 0 s.cells.length) GCell.nullCell
  else GCell.nullCell

/-- `GCellSet::prev_y` (get previous non-empty row). -/
def GCellSet.prev_y (s : GCellSet) (y : Int) : Int :=
  if s.prev_cell ⟨0, y⟩ = GCell.nullCell then -1 else (s.prev_cell ⟨0, y⟩).y

/-- `GCellSet::next_y` (get next non-empty row); `32767` is
`std::numeric_limits<int16_t>::max()`. -/
def GCellSet.next_y (s : GCellSet) (y : Int) : Int :=
  if s.next_cell ⟨32767, y⟩ = GCell.nullCell then -1 else (s.next_cell ⟨32767, y⟩).y

/-! ### Correctness of the binary searches on clean (sorted) sets -/

/-- The clean-state invariant of a `GCellSet` cell list: sorted under
the `GCell` order (the C++ `do_sort` keeps duplicates, so only the
non-strict order is guaranteed). -/
def sortedCells (cells : List GCell) : Prop :=
  cells.Pairwise (fun a b => a.leb b = true)

instance (cells : List GCell) : Decidable (sortedCells cells) := by
  unfold sortedCells
  infer_instance

theorem sorted_getD_mono {cells : List GCell} (hs : sortedCells cells) {i j : Nat}
    (hij : i ≤ j) (hj : j < cells.length) :
    (cells.getD i GCell.nullCell).leb (cells.getD j GCell.nullCell) = true := by
  rcases Nat.lt_or_ge i j with hlt | hge
  · have hi : i < cells.length := lt_trans hlt hj
    rw [List.getD_eq_getElem _ _ hi, List.getD_eq_getElem _ _ hj]
    exact List.pairwise_iff_getElem.mp hs i j hi hj hlt
  · have : i = j := le_antisymm hij hge
    subst this
    exact GCell.leb_refl _

theorem getD_mem {cells : List GCell} {i : Nat} (hi : i < cells.length) :
    cells.getD i GCell.nullCell ∈ cells := by
  rw [List.getD_eq_getElem _ _ hi]
  exact List.getElem_mem hi

theorem lowerBoundLoop_spec (cells : List GCell) (c : GCell) (hs : sortedCells cells) :
    ∀ (fuel b e : Nat), e - b ≤ fuel → b ≤ e → e ≤ cells.length →
    (∀ i, i < b → (cells.getD i GCell.nullCell).ltb c = true) →
    (∀ i, e ≤ i → i < cells.length → (cells.getD i GCell.nullCell).ltb c = false) →
    b ≤ lowerBoundLoop cells c fuel b e ∧ lowerBoundLoop cells c fuel b e ≤ e ∧
    (∀ i, i < lowerBoundLoop cells c fuel b e → (cells.getD i GCell.nullCell).ltb c = true) ∧
    (∀ i, lowerBoundLoop cells c fuel b e ≤ i → i < cells.length →
      (cells.getD i GCell.nullCell).ltb c = false) := by
  intro fuel
  induction fuel with
  | zero =>
    intro b e hfuel hbe hel hlo hhi
    have hbe' : b = e := by omega
    subst hbe'
    exact ⟨le_refl _, le_refl _, hlo, hhi⟩
  | succ fuel ih =>
    intro b e hfuel hbe hel hlo hhi
    have heq : lowerBoundLoop cells c (fuel + 1) b e =
        (if b < e then
          (if (cells.getD ((b + e) / 2) GCell.nullCell).ltb c then
            lowerBoundLoop cells c fuel ((b + e) / 2 + 1) e
          else lowerBoundLoop cells c fuel b ((b + e) / 2))
        else b) := rfl
    rw [heq]
    split
    · next h =>
      split
      · next hmid =>
        have hlo' : ∀ i, i < (b + e) / 2 + 1 → (cells.getD i GCell.nullCell).ltb c = true := by
          intro i hi
          rcases Nat.lt_or_ge i b with hib | hib
          · exact hlo i hib
          · exact GCell.leb_ltb_trans (sorted_getD_mono hs (by omega) (by omega)) hmid
        have hr := ih ((b + e) / 2 + 1) e (by omega) (by omega) hel hlo' hhi
        exact ⟨by omega, hr.2.1, hr.2.2.1, hr.2.2.2⟩
      · next hmid =>
        have hmid' : (cells.getD ((b + e) / 2) GCell.nullCell).ltb c = false := by
          simpa using hmid
        have hhi' : ∀ i, (b + e) / 2 ≤ i → i < cells.length →
            (cells.getD i GCell.nullCell).ltb c = false := by
          intro i hi hil
          cases hcl : (cells.getD i GCell.nullCell).ltb c
          · rfl
          · have hlt := GCell.leb_ltb_trans (sorted_getD_mono hs hi hil) hcl
            rw [hlt] at hmid'
            exact Bool.noConfusion hmid'
        have hr := ih b ((b + e) / 2) (by omega) (by omega) (by omega) hlo hhi'
        exact ⟨hr.1, by omega, hr.2.2.1, hr.2.2.2⟩
    · next h =>
      have hbe' : b = e := by omega
      subst hbe'
      exact ⟨le_refl _, le_refl _, hlo, hhi⟩

theorem upperBoundLoop_spec (cells : List GCell) (c : GCell) (hs : sortedCells cells) :
    ∀ (fuel b e : Nat), e - b ≤ fuel → b ≤ e → e ≤ cells.length →
    (∀ i, i < b → (cells.getD i GCell.nullCell).leb c = true) →
    (∀ i, e ≤ i → i < cells.length → (cells.getD i GCell.nullCell).leb c = false) →
    b ≤ upperBoundLoop cells c fuel b e ∧ upperBoundLoop cells c fuel b e ≤ e ∧
    (∀ i, i < upperBoundLoop cells c fuel b e → (cells.getD i GCell.nullCell).leb c = true) ∧
    (∀ i, upperBoundLoop cells c fuel b e ≤ i → i < cells.length →
      (cells.getD i GCell.nullCell).leb c = false) := by
  intro fuel
  induction fuel with
  | zero =>
    intro b e hfuel hbe hel hlo hhi
    have hbe' : b = e := by omega
    subst hbe'
    exact ⟨le_refl _, le_refl _, hlo, hhi⟩
  | succ fuel ih =>
    intro b e hfuel hbe hel hlo hhi
    have heq : upperBoundLoop cells c (fuel + 1) b e =
        (if b < e then
          (if (cells.getD ((b + e) / 2) GCell.nullCell).leb c then
            upperBoundLoop cells c fuel ((b + e) / 2 + 1) e
          else upperBoundLoop cells c fuel b ((b + e) / 2))
        else b) := rfl
    rw [heq]
    split
    · next h =>
      split
      · next hmid =>
        have hlo' : ∀ i, i < (b + e) / 2 + 1 → (cells.getD i GCell.nullCell).leb c = true := by
          intro i hi
          rcases Nat.lt_or_ge i b with hib | hib
          · exact hlo i hib
          · exact GCell.leb_trans (sorted_getD_mono hs (by omega) (by omega)) hmid
        have hr := ih ((b + e) / 2 + 1) e (by omega) (by omega) hel hlo' hhi
        exact ⟨by omega, hr.2.1, hr.2.2.1, hr.2.2.2⟩
      · next hmid =>
        have hmid' : (cells.getD ((b + e) / 2) GCell.nullCell).leb c = false := by
          simpa using hmid
        have hhi' : ∀ i, (b + e) / 2 ≤ i → i < cells.length →
            (cells.getD i GCell.nullCell).leb c = false := by
          intro i hi hil
          cases hcl : (cells.getD i GCell.nullCell).leb c
          · rfl
          · have hle := GCell.leb_trans (sorted_getD_mono hs hi hil) hcl
            rw [hle] at hmid'
            exact Bool.noConfusion hmid'
        have hr := ih b ((b + e) / 2) (by omega) (by omega) (by omega) hlo hhi'
        exact ⟨hr.1, by omega, hr.2.2.1, hr.2.2.2⟩
    · next h =>
      have hbe' : b = e := by omega
      subst hbe'
      exact ⟨le_refl _, le_refl _, hlo, hhi⟩

/-- On a clean set, `prev_cell` returns either the sentinel or a member
of the set that is strictly less than the probe and is an upper bound
for all members strictly less than the probe. -/
theorem prev_cell_spec (s : GCellSet) (c : GCell) (hs : sortedCells s.cells) :
    s.prev_cell c = GCell.nullCell ∨
    (s.prev_cell c ∈ s.cells ∧ (s.prev_cell c).ltb c = true ∧
      ∀ e ∈ s.cells, e.ltb c = true → e.leb (s.prev_cell c) = true) := by
  have hspec := lowerBoundLoop_spec s.cells c hs (s.cells.length + 1) 0 s.cells.length (by omega) (Nat.zero_le _)
    (le_refl _) (by omega) (by omega)
  unfold GCellSet.prev_cell
  split
  · next hcond =>
    right
    obtain ⟨-, -, hpre, hsuf⟩ := hspec
    set b := lowerBoundLoop s.cells c (s.cells.length + 1) 0 s.cells.length with hb
    refine ⟨getD_mem (by omega), hpre (b - 1) (by omega), ?_⟩
    intro e he helt
    obtain ⟨i, hi, hie⟩ := List.getElem_of_mem he
    have hib : i < b := by
      by_contra hib
      have := hsuf i (by omega) hi
      rw [List.getD_eq_getElem _ _ hi, hie, helt] at this
      exact Bool.noConfusion this
    have := sorted_getD_mono hs (i := i) (j := b - 1) (by omega) (by omega)
    rwa [List.getD_eq_getElem _ _ hi, hie] at this
  · left; rfl

/-- On a clean set, `next_cell` returns either the sentinel or a member
of the set that is strictly greater than the probe and is a lower bound
for all members strictly greater than the probe. -/
theorem next_cell_spec (s : GCellSet) (c : GCell) (hs : sortedCells s.cells) :
    s.next_cell c = GCell.nullCell ∨
    (s.next_cell c ∈ s.cells ∧ c.ltb (s.next_cell c) = true ∧
      ∀ e ∈ s.cells, c.ltb e = true → (s.next_cell c).leb e = true) := by
  have hspec := upperBoundLoop_spec s.cells c hs (s.cells.length + 1) 0 s.cells.length (by omega) (Nat.zero_le _)
    (le_refl _) (by omega) (by omega)
  unfold GCellSet.next_cell
  split
  · next hcond =>
    right
    obtain ⟨-, -, hpre, hsuf⟩ := hspec
    set b := upperBoundLoop s.cells c (s.cells.length + 1) 0 s.cells.length with hb
    refine ⟨getD_mem hcond, GCell.ltb_of_not_leb (hsuf b (le_refl _) hcond), ?_⟩
    intro e he helt
    obtain ⟨i, hi, hie⟩ := List.getElem_of_mem he
    have hib : b ≤ i := by
      by_contra hib
      have := hpre i (by omega)
      rw [List.getD_eq_getElem _ _ hi, hie] at this
      have := GCell.ltb_leb_trans helt this
      rw [GCell.ltb_irrefl] at this
      exact Bool.noConfusion this
    have := sorted_getD_mono hs (i := b) (j := i) hib hi
    rwa [List.getD_eq_getElem _ _ hi, hie] at this
  · left; rfl

/-- `prev_cell` is the greatest member below the probe whenever some
member lies below the probe *and* some member does not (the faithful
model inherits the C++ quirk that the sentinel is returned when every
member is below the probe). -/
theorem prev_cell_found (s : GCellSet) (c : GCell) (hs : sortedCells s.cells)
    (e₁ : GCell) (he₁ : e₁ ∈ s.cells) (hlt₁ : e₁.ltb c = true)
    (e₂ : GCell) (he₂ : e₂ ∈ s.cells) (hlt₂ : e₂.ltb c = false) :
    s.prev_cell c ∈ s.cells ∧ (s.prev_cell c).ltb c = true ∧
      ∀ e ∈ s.cells, e.ltb c = true → e.leb (s.prev_cell c) = true := by
  have hspec := lowerBoundLoop_spec s.cells c hs (s.cells.length + 1) 0 s.cells.length (by omega) (Nat.zero_le _)
    (le_refl _) (by omega) (by omega)
  obtain ⟨-, hble, hpre, hsuf⟩ := hspec
  obtain ⟨i₁, hi₁, hie₁⟩ := List.getElem_of_mem he₁
  obtain ⟨i₂, hi₂, hie₂⟩ := List.getElem_of_mem he₂
  have hib₁ : i₁ < lowerBoundLoop s.cells c (s.cells.length + 1) 0 s.cells.length := by
    by_contra hcon
    have := hsuf i₁ (by omega) hi₁
    rw [List.getD_eq_getElem _ _ hi₁, hie₁, hlt₁] at this
    exact Bool.noConfusion this
  have hib₂ : lowerBoundLoop s.cells c (s.cells.length + 1) 0 s.cells.length ≤ i₂ := by
    by_contra hcon
    have := hpre i₂ (by omega)
    rw [List.getD_eq_getElem _ _ hi₂, hie₂, hlt₂] at this
    exact Bool.noConfusion this
  unfold GCellSet.prev_cell
  rw [if_pos (by omega)]
  refine ⟨getD_mem (by omega), hpre _ (by omega), ?_⟩
  intro e he helt
  obtain ⟨i, hi, hie⟩ := List.getElem_of_mem he
  have hib : i < lowerBoundLoop s.cells c (s.cells.length + 1) 0 s.cells.length := by
    by_contra hcon
    have := hsuf i (by omega) hi
    rw [List.getD_eq_getElem _ _ hi, hie, helt] at this
    exact Bool.noConfusion this
  have := sorted_getD_mono hs (i := i)
    (j := lowerBoundLoop s.cells c (s.cells.length + 1) 0 s.cells.length - 1) (by omega) (by omega)
  rwa [List.getD_eq_getElem _ _ hi, hie] at this

theorem GCell.not_leb_of_ltb {a b : GCell} (h : a.ltb b = true) : b.leb a = false := by
  cases hc : b.leb a
  · rfl
  · have := GCell.ltb_leb_trans h hc
    rw [GCell.ltb_irrefl] at this
    exact Bool.noConfusion this

/-- `next_cell` is the least member above the probe whenever one
exists. -/
theorem next_cell_found (s : GCellSet) (c : GCell) (hs : sortedCells s.cells)
    (e₁ : GCell) (he₁ : e₁ ∈ s.cells) (hlt₁ : c.ltb e₁ = true) :
    s.next_cell c ∈ s.cells ∧ c.ltb (s.next_cell c) = true ∧
      ∀ e ∈ s.cells, c.ltb e = true → (s.next_cell c).leb e = true := by
  have hspec := upperBoundLoop_spec s.cells c hs (s.cells.length + 1) 0 s.cells.length (by omega) (Nat.zero_le _)
    (le_refl _) (by omega) (by omega)
  obtain ⟨-, hble, hpre, hsuf⟩ := hspec
  obtain ⟨i₁, hi₁, hie₁⟩ := List.getElem_of_mem he₁
  have hib₁ : upperBoundLoop s.cells c (s.cells.length + 1) 0 s.cells.length ≤ i₁ := by
    by_contra hcon
    have := hpre i₁ (by omega)
    rw [List.getD_eq_getElem _ _ hi₁, hie₁, GCell.not_leb_of_ltb hlt₁] at this
    exact Bool.noConfusion this
  unfold GCellSet.next_cell
  rw [if_pos (by omega)]
  refine ⟨getD_mem (by omega), GCell.ltb_of_not_leb (hsuf _ (le_refl _) (by omega)), ?_⟩
  intro e he helt
  obtain ⟨i, hi, hie⟩ := List.getElem_of_mem he
  have hib : upperBoundLoop s.cells c (s.cells.length + 1) 0 s.cells.length ≤ i := by
    by_contra hcon
    have := hpre i (by omega)
    rw [List.getD_eq_getElem _ _ hi, hie, GCell.not_leb_of_ltb helt] at this
    exact Bool.noConfusion this
  have := sorted_getD_mono hs (i := upperBoundLoop s.cells c (s.cells.length + 1) 0 s.cells.length) (j := i) hib hi
  rwa [List.getD_eq_getElem _ _ hi, hie] at this

/-! ## Bounding box, tree nodes, STree (`feline_internal.h` types and
`feline_stree.cc` lines 95-118) -/

/-- Modelled from the spec: an inclusive rectangle extended by taking
min/max componentwise; the empty box carries inverted int16 extremes. -/
structure BoundingBox where
  x0 : Int
  y0 : Int
  x1 : Int
  y1 : Int
deriving DecidableEq, Repr

def BoundingBox.empty : BoundingBox := ⟨32767, 32767, -32768, -32768⟩

def BoundingBox.extend (b : BoundingBox) (c : GCell) : BoundingBox :=
  ⟨min b.x0 c.x, min b.y0 c.y, max b.x1 c.x, max b.y1 c.y⟩

/-- Modelled from the spec: the per-cell node record (uphill parent or
sentinel, pin multiplicity).  Default-constructed as by the C++
`dict::operator[]`. -/
structure TreeNode where
  uphill : GCell := GCell.nullCell
  port_count : Nat := 0
deriving DecidableEq, Repr

/-- The rooted tree aggregate.  `nodes` is an association list with
unique keys; it models the C++ `dict<GCell, TreeNode>`, whose iteration
order is unspecified — the list order is the model's iteration order. -/
structure STree where
  source : GCell := GCell.nullCell
  nodes : List (GCell × TreeNode) := []
  ports : GCellSet := GCellSet.empty
  box : BoundingBox := BoundingBox.empty
deriving DecidableEq, Repr

/-- `dict::at` / `dict::count`: lookup in the association list. -/
def nodesLookup (nodes : List (GCell × TreeNode)) (c : GCell) : Option TreeNode :=
  (nodes.find? (fun p => p.1 = c)).map (fun p => p.2)

/-- `dict::operator[]` followed by a modification: update the entry in
place if present, otherwise append a default-constructed entry and
modify it. -/
def nodesUpsert (nodes : List (GCell × TreeNode)) (c : GCell) (f : TreeNode → TreeNode) :
    List (GCell × TreeNode) :=
  if (nodes.find? (fun p => p.1 = c)).isSome then
    nodes.map (fun p => if p.1 = c then (p.1, f p.2) else p)
  else nodes ++ [(c, f {})]

/-- `STree::init_nodes` (lines 95-118).  The netlist plumbing
(`Context`, `FelineAPI`, `NetInfo`) is external; its contribution is
abstracted to: whether a driver cell exists, whether the driver port is
vetoed (`steinerSkipPort`), the driver pin's grid cells, and each user
pin's grid cells.  Note that the C++ only checks the veto for the
driver pin, and `ports.do_sort()` runs unconditionally. -/
def STree.init_nodes (driverPresent skipDriver : Bool) (driverCells : List GCell)
    (userCells : List (List GCell)) : STree :=
  let result : STree := {}
  let result :=
    if driverPresent && !skipDriver then
      let r1 := driverCells.foldl (fun r dc =>
        { r with
          source := dc
          nodes := nodesUpsert r.nodes dc (fun t => { t with port_count := t.port_count + 1 })
          box := r.box.extend dc
          ports := r.ports.push dc }) result
      userCells.foldl (fun r ucs =>
        ucs.foldl (fun r uc =>
          { r with
            nodes := nodesUpsert r.nodes uc (fun t => { t with port_count := t.port_count + 1 })
            box := r.box.extend uc
            ports := r.ports.push uc }) r) r1
    else result
  { result with ports := result.ports.do_sort }

/-! ## Neighbour iteration (`STree::iterate_neighbours`, lines 172-229)

The callback is modelled by returning the list of cells passed to
`func`, in call order.  The two sweep loops become a fuel-indexed
recursion; a fuel of `|ports| + 1` covers every terminating C++
execution (each iteration moves to a strictly farther populated row
whenever all port cells have `x ≥ 0`; with ports at negative `x` the
C++ loop revisits a row for ever and does not terminate). -/

/-- The left-window half of one sweep iteration (lines 189-195 /
212-218): the greatest port `l` in row `y` with `x ≤ cell.x + 1 - 1`,
yielded when it falls inside the window; returns the yields and the
updated window edge. -/
def sweepStepL (ports : GCellSet) (cx y x0 : Int) : List GCell × Int :=
  if x0 ≤ cx then
    if (ports.prev_cell ⟨cx + 1, y⟩).y = y ∧ x0 ≤ (ports.prev_cell ⟨cx + 1, y⟩).x then
      ([ports.prev_cell ⟨cx + 1, y⟩], (ports.prev_cell ⟨cx + 1, y⟩).x + 1)
    else ([], x0)
  else ([], x0)

/-- The right-window half of one sweep iteration (lines 196-202 /
219-225). -/
def sweepStepR (ports : GCellSet) (cx y x1 : Int) : List GCell × Int :=
  if x1 > cx then
    if (ports.next_cell ⟨cx, y⟩).y = y ∧ (ports.next_cell ⟨cx, y⟩).x ≤ x1 then
      ([ports.next_cell ⟨cx, y⟩], (ports.next_cell ⟨cx, y⟩).x - 1)
    else ([], x1)
  else ([], x1)

/-- One iteration body of the down/up sweep: the left window then the
right window. -/
def sweepStep (ports : GCellSet) (cx y x0 x1 : Int) : List GCell × Int × Int :=
  ((sweepStepL ports cx y x0).1 ++ (sweepStepR ports cx y x1).1,
    (sweepStepL ports cx y x0).2, (sweepStepR ports cx y x1).2)

/-- The sweep loop shared by the decreasing-Y block (`nextRow =
prev_y`) and the increasing-Y block (`nextRow = next_y`). -/
def sweepLoop (ports : GCellSet) (nextRow : Int → Int) (cx : Int) :
    Nat → Int → Int → Int → List GCell
  | 0, _, _, _ => []
  | fuel + 1, y, x0, x1 =>
    if y ≠ -1 ∧ (x0 ≤ cx ∨ x1 > cx) then
      let s := sweepStep ports cx y x0 x1
      s.1 ++ sweepLoop ports nextRow cx fuel (nextRow y) s.2.1 s.2.2
    else []

/-- `STree::iterate_neighbours`, returning the cells passed to the
callback in order. -/
def STree.iterate_neighbours (st : STree) (cell : GCell) : List GCell :=
  let prev := st.ports.prev_cell cell
  let next := st.ports.next_cell cell
  let sameRow :=
    (if prev.y = cell.y then [prev] else []) ++ (if next.y = cell.y then [next] else [])
  let x0 := if prev.y = cell.y then prev.x else st.box.x0
  let x1 := if next.y = cell.y then next.x else st.box.x1
  let fuel := st.ports.cells.length + 1
  let down := sweepLoop st.ports (st.ports.prev_y) cell.x fuel (st.ports.prev_y cell.y) x0 x1
  let up := sweepLoop st.ports (st.ports.next_y) cell.x fuel (st.ports.next_y cell.y) x0 x1
  sameRow ++ down ++ up

/-! ## Prim-Dijkstra construction (`feline_stree.cc` lines 231-277)

Costs are 32-bit floats in the C++; they are modelled with exact
rationals.  Every concrete input used in the theorems below stays
within values float arithmetic represents exactly, so the comparisons
agree with the float ones. -/

/-- Generic association-list lookup (`dict::at` / `count`). -/
def assocLookup {α : Type} (l : List (GCell × α)) (c : GCell) : Option α :=
  (l.find? (fun p => p.1 = c)).map (fun p => p.2)

/-- Generic association-list store (`dict::operator[] = v`). -/
def assocSet {α : Type} (l : List (GCell × α)) (c : GCell) (v : α) : List (GCell × α) :=
  if (l.find? (fun p => p.1 = c)).isSome then
    l.map (fun p => if p.1 = c then (c, v) else p)
  else l ++ [(c, v)]

/-- Error outcomes of the embedded passes: the `NPNR_ASSERT`s and
`dict::at` aborts of the C++, plus the model-only fuel sentinel. -/
inductive FelineErr where
  | missingNode
  | missingLeaves
  | missingCount
  | assertEdge
  | assertRevisit
  | assertTwoDrivers
  | nonRectilinear
  | fanoutExceeded
  | topoCycle
  | fuelExhausted
deriving DecidableEq, Repr

deriving instance DecidableEq for Except

/-- The entries of the Prim-Dijkstra priority queue (lines 232-245). -/
structure QueueEntry where
  node : GCell
  uphill : GCell
  path_dist : Int
  cost : ℚ
deriving DecidableEq, Repr

/-- `QueueEntry::operator<` (lines 240-244; the comment there reads
"want the lowest cost highest to be the top of the queue"): `a < b`
iff `a.cost > b.cost`, with ties in cost broken by `a.node < b.node`. -/
def QueueEntry.ltb (a b : QueueEntry) : Bool :=
  (b.cost < a.cost) || (a.cost = b.cost && a.node.ltb b.node)

/-- `std::priority_queue::top`: a maximal element of the queue with
respect to `QueueEntry::operator<`.  Among entries that are equivalent
under the comparator (same cost and same node) the C++ heap's choice is
unspecified; the model takes the earliest such entry. -/
def pqTop : List QueueEntry → Option QueueEntry
  | [] => none
  | h :: t => some (t.foldl (fun best e => if best.ltb e then e else best) h)

/-- The mutable state of `run_prim_djistrka`: the tree being claimed,
the `best_cost` dict and the `to_visit` queue (modelled as the multiset
of entries not yet popped). -/
structure PrimState where
  tree : STree
  best : List (GCell × ℚ)
  queue : List QueueEntry
deriving DecidableEq, Repr

/-- The tail of the `do_expand` callback after the `best_cost` gate:
the claimed-check (`nodes.at(neighbour)`, which aborts on a cell absent
from `nodes`) followed by the push and the `best_cost` store. -/
def expandTry (s : PrimState) (n cell : GCell) (next_path_dist : Int) (node_cost : ℚ) :
    Except FelineErr PrimState :=
  match nodesLookup s.tree.nodes n with
  | none => Except.error FelineErr.missingNode
  | some tn =>
    if tn.uphill ≠ GCell.nullCell then pure s
    else pure { s with
      queue := s.queue ++ [⟨n, cell, next_path_dist, node_cost⟩]
      best := assocSet s.best n node_cost }

/-- The body of the `do_expand` callback for one yielded neighbour
(lines 254-265): `edge_cost = mdist(n, cell)`,
`next_path_dist = path_dist + edge_cost`,
`node_cost = α · next_path_dist + edge_cost`; skip if `best_cost`
already beats `node_cost`. -/
def expandStep (alpha : ℚ) (path_dist : Int) (cell : GCell) (s : PrimState) (n : GCell) :
    Except FelineErr PrimState :=
  if (match assocLookup s.best n with
      | some bc => decide (bc ≤ alpha * ((path_dist + n.mdist cell : Int) : ℚ) +
          ((n.mdist cell : Int) : ℚ))
      | none => false) then pure s
  else expandTry s n cell (path_dist + n.mdist cell)
    (alpha * ((path_dist + n.mdist cell : Int) : ℚ) + ((n.mdist cell : Int) : ℚ))

/-- The `do_expand` lambda (lines 253-266).  The neighbour callbacks
run left to right; an abort inside a callback aborts the whole call. -/
def doExpand (alpha : ℚ) (path_dist : Int) (cell : GCell) (s : PrimState) :
    Except FelineErr PrimState :=
  (s.tree.iterate_neighbours cell).foldlM (expandStep alpha path_dist cell) s

/-- The main queue-draining loop of `run_prim_djistrka` (lines
268-276); fuel-indexed, with the fuel chosen by the caller to dominate
the number of pops of the C++ loop. -/
def primLoop (alpha : ℚ) : Nat → PrimState → Except FelineErr PrimState
  | 0, _ => Except.error FelineErr.fuelExhausted
  | fuel + 1, s =>
    match pqTop s.queue with
    | none => pure s
    | some next =>
      let s := { s with queue := s.queue.erase next }
      match nodesLookup s.tree.nodes next.node with
      | none => Except.error FelineErr.missingNode
      | some tn =>
        if tn.uphill ≠ GCell.nullCell then primLoop alpha fuel s
        else do
          let s := { s with tree := { s.tree with
            nodes := nodesUpsert s.tree.nodes next.node
              (fun t => { t with uphill := next.uphill }) } }
          let s ← doExpand alpha next.path_dist next.node s
          primLoop alpha fuel s

/-- `STree::run_prim_djistrka` (lines 248-277).  The fuel bounds the
number of pops: each cell is committed (and hence expanded) at most
once, so the C++ loop pops at most `(|nodes| + 1) · Y` entries where
`Y` bounds the cells yielded by one `iterate_neighbours` call. -/
def STree.run_prim_djistrka (st : STree) (alpha : ℚ) : Except FelineErr STree := do
  let fuel := (st.nodes.length + 1) * (4 * st.ports.cells.length + 8) + 1
  let s : PrimState := { tree := st, best := [(st.source, 0)], queue := [] }
  let s ← doExpand alpha 0 st.source s
  let s ← primLoop alpha fuel s
  pure s.tree

/-! ## Leaves, descendant counts and edge flipping (`feline_stree.cc`
lines 279-386) -/

/-- `pool<GCell>::insert`: the pool is modelled as a duplicate-free
list in insertion order (the C++ pool's iteration order is
unspecified; the list order is the model's iteration order). -/
def poolInsert (p : List GCell) (c : GCell) : List GCell :=
  if c ∈ p then p else p ++ [c]

/-- `pool<GCell>::erase`. -/
def poolErase (p : List GCell) (c : GCell) : List GCell := p.erase c

/-- `dict::operator[]` with default followed by a modification. -/
def assocModify {α : Type} (dflt : α) (l : List (GCell × α)) (c : GCell) (f : α → α) :
    List (GCell × α) :=
  if (l.find? (fun p => p.1 = c)).isSome then
    l.map (fun p => if p.1 = c then (c, f p.2) else p)
  else l ++ [(c, f dflt)]

/-- `STree::get_leaves` (lines 279-285): record every claimed node as a
leaf of its uphill cell. -/
def STree.get_leaves (st : STree) : List (GCell × List GCell) :=
  st.nodes.foldl (fun lv p =>
    if p.2.uphill ≠ GCell.nullCell then
      assocModify [] lv p.2.uphill (fun s => poolInsert s p.1)
    else lv) []

/-- `get_total_leaf_count` (lines 288-298): post-order DFS filling
`leaf_count`; the assert fires on a revisit (which, thanks to the
post-order store, can only happen for a node with two distinct
parents, not for a cycle — on a cycle the C++ recurses for ever, which
the model reports as fuel exhaustion). -/
def get_total_leaf_count (leaves : List (GCell × List GCell)) :
    Nat → GCell → List (GCell × Int) → Except FelineErr (Int × List (GCell × Int))
  | 0, _, _ => Except.error FelineErr.fuelExhausted
  | fuel + 1, cursor, table =>
    if (assocLookup table cursor).isSome then Except.error FelineErr.assertRevisit
    else
      match assocLookup leaves cursor with
      | some ls => do
        let r ← ls.foldlM (fun (acc : Int × List (GCell × Int)) leaf => do
          let r ← get_total_leaf_count leaves fuel leaf acc.2
          pure (acc.1 + r.1 + 1, r.2)) ((0 : Int), table)
        pure (r.1, assocSet r.2 cursor r.1)
      | none => pure ((0 : Int), assocSet table cursor 0)

/-- The anonymous-namespace `SEdge` helper (lines 299-306). -/
structure SEdge where
  src : GCell := GCell.nullCell
  dst : GCell := GCell.nullCell
deriving DecidableEq, Repr

def SEdge.flip (e : SEdge) : SEdge := ⟨e.dst, e.src⟩

def SEdge.dist (e : SEdge) : Int := e.dst.mdist e.src

/-- The mutable state of `do_edge_flips`: the tree plus the two
auxiliary tables built before the loop. -/
structure FlipState where
  tree : STree
  leaves : List (GCell × List GCell)
  tlc : List (GCell × Int)
deriving DecidableEq, Repr

/-- The `rem_edge` lambda (lines 315-321). -/
def rem_edge (fs : FlipState) (e : SEdge) : Except FelineErr FlipState :=
  match nodesLookup fs.tree.nodes e.dst with
  | none => Except.error FelineErr.missingNode
  | some ndst =>
    if ndst.uphill = e.src then
      let nodes := nodesUpsert fs.tree.nodes e.dst (fun t => { t with uphill := GCell.nullCell })
      match assocLookup fs.leaves e.src with
      | none => Except.error FelineErr.missingLeaves
      | some ls =>
        if e.dst ∈ ls then
          pure { fs with
            tree := { fs.tree with nodes := nodes }
            leaves := assocSet fs.leaves e.src (poolErase ls e.dst) }
        else Except.error FelineErr.assertEdge
    else Except.error FelineErr.assertEdge

/-- The `add_edge` lambda (lines 322-327). -/
def add_edge (fs : FlipState) (e : SEdge) : Except FelineErr FlipState :=
  match nodesLookup fs.tree.nodes e.dst with
  | none => Except.error FelineErr.missingNode
  | some ndst =>
    if ndst.uphill = GCell.nullCell then
      pure { fs with
        tree := { fs.tree with
          nodes := nodesUpsert fs.tree.nodes e.dst (fun t => { t with uphill := e.src }) }
        leaves := assocModify [] fs.leaves e.src (fun s => poolInsert s e.dst) }
    else Except.error FelineErr.assertEdge

/-- The per-iteration result of the move search (`best_delta`,
`best_rem`, `best_add`, `best_flp`). -/
structure BestMove where
  delta : ℚ
  rem : SEdge := {}
  add : SEdge := {}
  flp : SEdge := {}
deriving DecidableEq, Repr

/-- The move search of one `do`-loop iteration (lines 336-372),
including the PD-II delta formula of lines 358-363. -/
def searchMoves (fs : FlipState) (alpha : ℚ) : Except FelineErr BestMove :=
  fs.tree.nodes.foldlM (fun best p =>
    if p.2.uphill = GCell.nullCell then pure best
    else
      match assocLookup fs.leaves p.2.uphill, assocLookup fs.leaves p.1 with
      | some lsU, some lsV =>
        lsU.foldlM (fun best new_src =>
          if new_src = p.1 then pure best
          else lsV.foldlM (fun best new_dst =>
            let remd : SEdge := ⟨p.2.uphill, p.1⟩
            let added : SEdge := ⟨new_src, new_dst⟩
            let flipped : SEdge := ⟨p.1, new_dst⟩
            match assocLookup fs.tlc p.1, assocLookup fs.tlc new_dst with
            | some tv, some tnd =>
              let orig_path_cost : Int :=
                remd.dist * (1 + tv) + flipped.dist * (1 + tnd)
              let new_path_cost : Int :=
                (added.dist + flipped.dist) * ((1 + tv) - (1 + tnd)) + added.dist * (1 + tnd)
              let delta : ℚ := alpha * ((new_path_cost - orig_path_cost : Int) : ℚ) +
                (1 - alpha) * ((added.dist - remd.dist : Int) : ℚ)
              if delta < best.delta then
                pure { delta := delta, rem := remd, add := added, flp := flipped }
              else pure best
            | _, _ => Except.error FelineErr.missingCount) best) best
      | _, _ => pure best) { delta := 0 }

/-- The commit block of lines 373-383. -/
def flipCommit (fs : FlipState) (bm : BestMove) : Except FelineErr FlipState := do
  let fs ← rem_edge fs bm.rem
  let fs ← if bm.flp.src ≠ GCell.nullCell then rem_edge fs bm.flp else pure fs
  let fs ← add_edge fs bm.add
  let fs ← if bm.flp.src ≠ GCell.nullCell then add_edge fs bm.flp.flip else pure fs
  pure fs

/-- The `do … while (best_delta < 0)` loop (lines 335-384), also
counting `moves_made`.  The C++ loop has no iteration bound (and,
because `total_leaf_count` is never refreshed, no termination
argument), so the model is fuel-indexed. -/
def flipLoop (alpha : ℚ) : Nat → FlipState → Nat → Except FelineErr (FlipState × Nat)
  | 0, _, _ => Except.error FelineErr.fuelExhausted
  | fuel + 1, fs, moves => do
    let bm ← searchMoves fs alpha
    if bm.delta < 0 then do
      let fs ← flipCommit fs bm
      flipLoop alpha fuel fs (moves + 1)
    else pure (fs, moves)

/-- `STree::do_edge_flips` (lines 309-386), returning the mutated tree
and the number of moves made. -/
def STree.do_edge_flips (st : STree) (alpha : ℚ) (fuel : Nat) :
    Except FelineErr (STree × Nat) := do
  let leaves := st.get_leaves
  let r ← get_total_leaf_count leaves (st.nodes.length + 1) st.source []
  let fm ← flipLoop alpha fuel { tree := st, leaves := leaves, tlc := r.2 } 0
  pure (fm.1.tree, fm.2)

/-! ## Topological sort and altitudes (`feline_stree.cc` lines
388-423) -/

/-- Modelled from the spec: the `TopoSort` utility of `util.h` is not
part of the given source tree; §4.7 specifies a parent-before-child
order with cycle detection.  Implemented as Kahn-style rounds: each
round emits (in map order) every remaining node whose uphill is the
sentinel or is no longer remaining; a round that emits nothing reports
a cycle (the C++ `NPNR_ASSERT(no_loops)`). -/
def topoSortRounds : Nat → List (GCell × TreeNode) → List GCell →
    Except FelineErr (List GCell)
  | 0, todo, done =>
    if todo.isEmpty then pure done else Except.error FelineErr.fuelExhausted
  | fuel + 1, todo, done =>
    if todo.isEmpty then pure done
    else
      let ready := todo.filter (fun p =>
        p.2.uphill = GCell.nullCell ∨ (todo.find? (fun q => q.1 = p.2.uphill)).isNone)
      if ready.isEmpty then Except.error FelineErr.topoCycle
      else
        topoSortRounds fuel
          (todo.filter (fun p =>
            ¬(p.2.uphill = GCell.nullCell ∨ (todo.find? (fun q => q.1 = p.2.uphill)).isNone)))
          (done ++ ready.map (fun p => p.1))

/-- `STree::topo_sorted` (lines 388-401). -/
def STree.topo_sorted (st : STree) : Except FelineErr (List GCell) :=
  topoSortRounds (st.nodes.length + 1) st.nodes []

/-- `STree::get_altitudes` (lines 403-423): relax
`alt[uphill] = max (alt[uphill]) (alt[node] + 1)` over the reversed
topological order; returns the maximum altitude and the table. -/
def STree.get_altitudes (st : STree) : Except FelineErr (Int × List (GCell × Int)) := do
  let sorted ← st.topo_sorted
  let altitudes ← sorted.reverse.foldlM (fun (alt : List (GCell × Int)) node => do
    let alt := if (assocLookup alt node).isSome then alt else assocSet alt node 0
    match nodesLookup st.nodes node with
    | none => Except.error FelineErr.missingNode
    | some tn =>
      if tn.uphill ≠ GCell.nullCell then
        let an := (assocLookup alt node).getD 0
        match assocLookup alt tn.uphill with
        | none => pure (assocSet alt tn.uphill (an + 1))
        | some au => pure (assocSet alt tn.uphill (max au (an + 1)))
      else pure alt) []
  pure (altitudes.foldl (fun m p => max m p.2) 0, altitudes)

/-! ## HVW steinerisation (`feline_stree.cc` lines 425-631) -/

/-- The worker state: the tree (held by reference in the C++) and the
worker's `leaves` table. -/
structure HvwState where
  tree : STree
  leaves : List (GCell × List GCell)
deriving DecidableEq, Repr

/-- `HvwWorker::iter_edges` (lines 437-446): the uphill edge (if any)
followed by a snapshot of the direct children.  `leaves.at` aborts on
a cell without a leaves entry. -/
def iterEdges (hs : HvwState) (cell : GCell) : Except FelineErr (List (GCell × Bool)) :=
  match nodesLookup hs.tree.nodes cell with
  | none => Except.error FelineErr.missingNode
  | some tn =>
    match assocLookup hs.leaves cell with
    | none => Except.error FelineErr.missingLeaves
    | some l =>
      pure ((if tn.uphill ≠ GCell.nullCell then [(tn.uphill, true)] else []) ++
        l.map (fun c => (c, false)))

/-- `HvwWorker::EdgeDir` (lines 447-453). -/
inductive EdgeDir where
  | XINC
  | XDEC
  | YINC
  | YDEC
deriving DecidableEq, Repr

/-- `HvwWorker::get_dir_extent` (lines 454-465); asserts on a
non-rectilinear edge. -/
def get_dir_extent (node other : GCell) : Except FelineErr (EdgeDir × Int) :=
  if node.y = other.y then
    if other.x < node.x then pure (EdgeDir.XDEC, node.x - other.x)
    else pure (EdgeDir.XINC, other.x - node.x)
  else if node.x = other.x then
    if other.y < node.y then pure (EdgeDir.YDEC, node.y - other.y)
    else pure (EdgeDir.YINC, other.y - node.y)
  else Except.error FelineErr.nonRectilinear

/-- `leaves.at(c)` followed by a pool mutation (aborts on a missing
entry, unlike `leaves[c]`). -/
def leavesAtModify (lv : List (GCell × List GCell)) (c : GCell) (f : List GCell → List GCell) :
    Except FelineErr (List (GCell × List GCell)) :=
  match assocLookup lv c with
  | none => Except.error FelineErr.missingLeaves
  | some s => pure (assocSet lv c (f s))

/-- `tree.nodes.at(c).uphill = u` (aborts on a missing node). -/
def nodesAtSetUphill (nodes : List (GCell × TreeNode)) (c u : GCell) :
    Except FelineErr (List (GCell × TreeNode)) :=
  match nodesLookup nodes c with
  | none => Except.error FelineErr.missingNode
  | some _ => pure (nodesUpsert nodes c (fun t => { t with uphill := u }))

/-- `HvwWorker::cleanup_overlap` (lines 466-502).  The outer
`iter_edges` snapshot is taken once; each outer step takes a fresh
inner snapshot of the (possibly already mutated) state; `processed`
persists across the whole call.  The backward-edge branch faithfully
reproduces the C++ `leaves.at(b).insert(b)` self-insertion of line
494. -/
def cleanup_overlap (hs : HvwState) (node : GCell) : Except FelineErr HvwState := do
  let outer ← iterEdges hs node
  let r ← outer.foldlM (fun (acc : HvwState × List GCell) ab => do
    let deA ← get_dir_extent node ab.1
    let inner ← iterEdges acc.1 node
    inner.foldlM (fun (acc : HvwState × List GCell) bb => do
      if ab.1 = bb.1 then pure acc
      else if ab.1 ∈ acc.2 ∨ bb.1 ∈ acc.2 then pure acc
      else if ab.2 ∧ bb.2 then Except.error FelineErr.assertTwoDrivers
      else do
        let deB ← get_dir_extent node bb.1
        if deA.1 ≠ deB.1 then pure acc
        else if deA.2 ≥ deB.2 then pure acc
        else if ¬bb.2 then do
          let nodes ← nodesAtSetUphill acc.1.tree.nodes bb.1 ab.1
          let leaves ← leavesAtModify acc.1.leaves node (fun s => poolErase s bb.1)
          let leaves := assocModify [] leaves ab.1 (fun s => poolInsert s bb.1)
          pure ({ tree := { acc.1.tree with nodes := nodes }, leaves := leaves },
            acc.2 ++ [bb.1])
        else if ab.2 then Except.error FelineErr.assertTwoDrivers
        else do
          let nodes ← nodesAtSetUphill acc.1.tree.nodes ab.1 bb.1
          let leaves ← leavesAtModify acc.1.leaves bb.1 (fun s => poolErase s node)
          let leaves ← leavesAtModify leaves bb.1 (fun s => poolInsert s bb.1)
          let nodes ← nodesAtSetUphill nodes node ab.1
          let leaves ← leavesAtModify leaves node (fun s => poolErase s ab.1)
          let leaves := assocModify [] leaves ab.1 (fun s => poolInsert s node)
          pure ({ tree := { acc.1.tree with nodes := nodes }, leaves := leaves },
            acc.2 ++ [bb.1])) acc) (hs, ([] : List GCell))
  pure r.1

/-- The `process_seg` lambda (lines 534-580): scan `line_segs` for the
first segment starting at `a` and collinear-compatible with `b`,
extend it and return the overlap; append a fresh segment otherwise. -/
def processSeg (a b : GCell) : List (GCell × GCell) → Int × List (GCell × GCell)
  | [] => (0, [(a, b)])
  | seg :: rest =>
    if seg.1 = a ∧ seg.2.x = b.x ∧ seg.1.x = seg.2.x then
      if seg.2.y < seg.1.y then
        if b.y < seg.2.y then (seg.1.y - seg.2.y, (seg.1, ⟨seg.2.x, b.y⟩) :: rest)
        else (seg.1.y - b.y, seg :: rest)
      else
        if b.y > seg.2.y then (seg.2.y - seg.1.y, (seg.1, ⟨seg.2.x, b.y⟩) :: rest)
        else (b.y - seg.1.y, seg :: rest)
    else if seg.1 = a ∧ seg.2.y = b.y ∧ seg.1.y = seg.2.y then
      if seg.2.x < seg.1.x then
        if b.x < seg.2.x then (seg.1.x - seg.2.x, (seg.1, ⟨b.x, seg.2.y⟩) :: rest)
        else (seg.1.x - b.x, seg :: rest)
      else
        if b.x > seg.2.x then (seg.2.x - seg.1.x, (seg.1, ⟨b.x, seg.2.y⟩) :: rest)
        else (b.x - seg.1.x, seg :: rest)
    else
      let r := processSeg a b rest
      (r.1, seg :: r.2)

/-- The total overlap of one orientation `choice` (lines 531-594):
seed `line_segs` with the fixed edges, then process the two L-halves
of each flexible edge in index order (bit `e` of `choice` selects the
midpoint `(node.x, other.y)` over `(other.x, node.y)`). -/
def choiceOverlap (node : GCell) (fixed_edges edges : List GCell) (choice : Nat) : Int :=
  let r := (List.range edges.length).foldl (fun (acc : Int × List (GCell × GCell)) e =>
    let shape := choice.testBit e
    let other := edges.getD e GCell.nullCell
    let mid : GCell := ⟨if shape then node.x else other.x, if shape then other.y else node.y⟩
    let r1 := processSeg node mid acc.2
    let r2 := processSeg mid other r1.2
    (acc.1 + r1.1 + r2.1, r2.2)) (0, fixed_edges.map (fun e => (node, e)))
  r.1

/-- The orientation search (lines 527-595): maximise the overlap over
all `2^k` choices, strict improvement only, so the lowest mask wins
ties; `best_overlap` starts at `-1` and `best_choice` at `0`. -/
def bestChoice (node : GCell) (fixed_edges edges : List GCell) : Nat :=
  ((List.range (2 ^ edges.length)).foldl (fun (acc : Int × Nat) choice =>
    let ovl := choiceOverlap node fixed_edges edges choice
    if ovl > acc.1 then (ovl, choice) else acc) (-1, 0)).2

/-- The commit block (lines 597-619): split every flexible edge through
its chosen midpoint, reusing an existing `mid` node without touching
its uphill.  (The C++ also fills a `steiners` pool that is never read;
it is omitted.)  All container accesses here are `operator[]`, so no
aborts occur. -/
def commitChoice (hs : HvwState) (node uphill : GCell) (edges : List GCell) (choice : Nat) :
    HvwState :=
  (List.range edges.length).foldl (fun hs e =>
    let shape := choice.testBit e
    let other := edges.getD e GCell.nullCell
    let mid : GCell := ⟨if shape then node.x else other.x, if shape then other.y else node.y⟩
    if other = uphill then
      let nodes := if (nodesLookup hs.tree.nodes mid).isSome then hs.tree.nodes
        else nodesUpsert hs.tree.nodes mid (fun t => { t with uphill := other })
      let nodes := nodesUpsert nodes node (fun t => { t with uphill := mid })
      let leaves := assocModify [] hs.leaves uphill (fun s => poolErase s node)
      let leaves := assocModify [] leaves uphill (fun s => poolInsert s mid)
      let leaves := assocModify [] leaves mid (fun s => poolInsert s node)
      { tree := { hs.tree with nodes := nodes }, leaves := leaves }
    else
      let nodes := if (nodesLookup hs.tree.nodes mid).isSome then hs.tree.nodes
        else nodesUpsert hs.tree.nodes mid (fun t => { t with uphill := node })
      let nodes := nodesUpsert nodes other (fun t => { t with uphill := mid })
      let leaves := assocModify [] hs.leaves node (fun s => poolErase s other)
      let leaves := assocModify [] leaves node (fun s => poolInsert s mid)
      let leaves := assocModify [] leaves mid (fun s => poolInsert s other)
      { tree := { hs.tree with nodes := nodes }, leaves := leaves }) hs

/-- Processing of one queue entry in `HvwWorker::run` (lines 513-620):
partition the incident edges into fixed and flexible, assert the
flexible fan-out bound (`NPNR_ASSERT(edges.size() < 10)`, line 529),
pick the best orientation, commit it, then clean up overlaps. -/
def processNode (hs : HvwState) (node : GCell) : Except FelineErr HvwState :=
  match nodesLookup hs.tree.nodes node with
  | none => Except.error FelineErr.missingNode
  | some tn => do
    let el ← iterEdges hs node
    let fixed_edges := (el.filter (fun p => p.1.x = node.x ∨ p.1.y = node.y)).map (fun p => p.1)
    let edges := (el.filter (fun p => ¬(p.1.x = node.x ∨ p.1.y = node.y))).map (fun p => p.1)
    if edges.isEmpty then pure hs
    else if ¬(edges.length < 10) then Except.error FelineErr.fanoutExceeded
    else
      cleanup_overlap
        (commitChoice hs node tn.uphill edges (bestChoice node fixed_edges edges)) node

/-- `HvwWorker::run` + `STree::steinerise_hvw` (lines 503-631): build
the altitude queue (skipping altitude 0), sort it by `(altitude,
cell)` as `std::sort` does on `std::pair`, and process each entry. -/
def STree.steinerise_hvw (st : STree) : Except FelineErr STree := do
  let r ← st.get_altitudes
  let queue := (r.2.filter (fun p => p.2 ≠ 0)).map (fun p => (p.2, p.1))
  let queue := List.insertionSort
    (fun a b : Int × GCell => a.1 < b.1 ∨ (a.1 = b.1 ∧ a.2.leb b.2 = true)) queue
  let hs ← queue.foldlM (fun hs q => processNode hs q.2)
    { tree := st, leaves := st.get_leaves }
  pure hs.tree

/-! ## Specification-side definitions

These definitions follow the words of the spec (not the code); the
claims compare the embedded code against them. -/

/-- `p` lies in the minimal axis-aligned bounding box containing `a`
and `b` (inclusive). -/
def inBox (a b p : GCell) : Prop :=
  min a.x b.x ≤ p.x ∧ p.x ≤ max a.x b.x ∧ min a.y b.y ≤ p.y ∧ p.y ≤ max a.y b.y

instance (a b p : GCell) : Decidable (inBox a b p) := by
  unfold inBox
  infer_instance

/-- Spec §4.3: a *neighbour* of `c` is any port cell `n` such that the
minimal bounding box containing both `c` and `n` contains no other
port cell. -/
def trueNeighbour (ports : List GCell) (c n : GCell) : Prop :=
  n ∈ ports ∧ n ≠ c ∧ ∀ p ∈ ports, p ≠ c → p ≠ n → ¬inBox c n p

instance (ports : List GCell) (c n : GCell) : Decidable (trueNeighbour ports c n) := by
  unfold trueNeighbour
  infer_instance

/-- The chain of strict ancestors of `c` obtained by following
`uphill` pointers (fuel-truncated; `nodes.length` steps suffice for
any acyclic tree). -/
def uphillChain (nodes : List (GCell × TreeNode)) : Nat → GCell → List GCell
  | 0, _ => []
  | fuel + 1, c =>
    match nodesLookup nodes c with
    | none => []
    | some tn =>
      if tn.uphill = GCell.nullCell then []
      else tn.uphill :: uphillChain nodes fuel tn.uphill

/-- Spec §3/§8: a well-formed rooted tree — the source is a node with
no uphill, and every other node's parent chain reaches the source. -/
def rootedTree (st : STree) : Prop :=
  (nodesLookup st.nodes st.source).isSome ∧
  (∀ tn, nodesLookup st.nodes st.source = some tn → tn.uphill = GCell.nullCell) ∧
  ∀ p ∈ st.nodes, p.1 ≠ st.source →
    st.source ∈ uphillChain st.nodes st.nodes.length p.1

instance (st : STree) : Decidable (rootedTree st) := by
  unfold rootedTree
  infer_instance

/-- `v` is a strict descendant of `u`: `u` occurs on `v`'s uphill
chain. -/
def isDescendant (nodes : List (GCell × TreeNode)) (u v : GCell) : Prop :=
  u ∈ uphillChain nodes nodes.length v

instance (nodes : List (GCell × TreeNode)) (u v : GCell) : Decidable (isDescendant nodes u v) := by
  unfold isDescendant
  infer_instance

/-- The number of descendants of `u` in the tree (spec §4.5: the value
`total_leaf_count[u]` is required to equal). -/
def descendantCount (nodes : List (GCell × TreeNode)) (u : GCell) : Int :=
  (nodes.filter (fun p => isDescendant nodes u p.1)).length

/-- The source-to-cell path length along uphill edges (`none` when the
chain does not terminate at a root within the fuel). -/
def pathLen (nodes : List (GCell × TreeNode)) : Nat → GCell → Option Int
  | 0, _ => none
  | fuel + 1, c =>
    match nodesLookup nodes c with
    | none => none
    | some tn =>
      if tn.uphill = GCell.nullCell then some 0
      else (pathLen nodes fuel tn.uphill).map (fun d => d + c.mdist tn.uphill)

/-- Spec §4.5/§8: the weighted objective
`α · Σ_pins path + (1 − α) · Σ_edges len` (pins weighted by their
multiplicity `port_count`). -/
def STree.objective (st : STree) (alpha : ℚ) : Option ℚ := do
  let paths ← st.nodes.mapM (fun p =>
    (pathLen st.nodes (st.nodes.length + 1) p.1).map
      (fun d => ((p.2.port_count : ℚ)) * (d : ℚ)))
  let pathSum : ℚ := paths.foldl (· + ·) 0
  let lenSum : Int := st.nodes.foldl
    (fun acc p => if p.2.uphill ≠ GCell.nullCell then acc + p.1.mdist p.2.uphill else acc) 0
  pure (alpha * pathSum + (1 - alpha) * (lenSum : ℚ))

/-- A `clear`/`push` operation on a `GCellSet` (spec §4.1). -/
inductive SetOp where
  | clear
  | push (c : GCell)
deriving DecidableEq, Repr

def applySetOps (s : GCellSet) (ops : List SetOp) : GCellSet :=
  ops.foldl (fun s op =>
    match op with
    | SetOp.clear => s.clear
    | SetOp.push c => s.push c) s

/-! ## Claim theorems -/

/-- The C1 failing input: a well-formed rooted tree with source
`(0,0)`, the node `(2,2)` uphill of it, and `(2,0)` uphill of
`(2,2)`. -/
def hvwCycleInput : STree :=
  { source := ⟨0, 0⟩
    nodes := [(⟨0, 0⟩, { port_count := 1 }),
              (⟨2, 2⟩, { uphill := ⟨0, 0⟩, port_count := 1 }),
              (⟨2, 0⟩, { uphill := ⟨2, 2⟩, port_count := 1 })]
    ports := ⟨[⟨0, 0⟩, ⟨2, 0⟩, ⟨2, 2⟩], false⟩
    box := ⟨0, 0, 2, 2⟩ }

/-- The tree `steinerise_hvw` produces on `hvwCycleInput`. -/
def hvwCycleOutput : STree :=
  { hvwCycleInput with
    nodes := [(⟨0, 0⟩, { port_count := 1 }),
              (⟨2, 2⟩, { uphill := ⟨2, 0⟩, port_count := 1 }),
              (⟨2, 0⟩, { uphill := ⟨2, 2⟩, port_count := 1 })] }

/-- C1: refuted on the code.  On the well-formed rooted tree
`hvwCycleInput`, `steinerise_hvw` splits the flexible edge
`(2,2) → (0,0)` through the midpoint `(2,0)`, which already exists as
a descendant of `(2,2)` and is reused without changing its uphill
(lines 601-604), so `(2,2)` and `(2,0)` become each other's parents:
the result is cyclic and `(2,0)`'s uphill chain no longer reaches the
source, contradicting the claimed post-conditions. -/
theorem hvw_creates_cycle :
    rootedTree hvwCycleInput ∧
    hvwCycleInput.steinerise_hvw = Except.ok hvwCycleOutput ∧
    nodesLookup hvwCycleOutput.nodes ⟨2, 2⟩ = some ⟨⟨2, 0⟩, 1⟩ ∧
    nodesLookup hvwCycleOutput.nodes ⟨2, 0⟩ = some ⟨⟨2, 2⟩, 1⟩ ∧
    ¬rootedTree hvwCycleOutput := by
  refine ⟨by decide, by decide, by decide, by decide, by decide⟩

/-- The C6 failing input: a clean port set `{(1,0), (1,1), (0,2)}`
whose bounding box (together with the query cell `(3,0)`) is
`[0,3] × [0,2]`. -/
def neighbourBugTree : STree :=
  { source := ⟨1, 0⟩
    nodes := []
    ports := ⟨[⟨1, 0⟩, ⟨1, 1⟩, ⟨0, 2⟩], false⟩
    box := ⟨0, 0, 3, 2⟩ }

/-- C6: refuted on the code.  Querying the neighbours of `(3,0)`
yields `(1,1)` even though the minimal bounding box of `(3,0)` and
`(1,1)` contains the port `(1,0)`: the upward sweep's left window is
initialised at the same-row neighbour's column *inclusively*
(`l.x >= x0` with `x0 = prev.x`, lines 185/213), contradicting the
empty-box neighbour definition stated in the code's own comment
(lines 174-176) and in the spec. -/
theorem iterate_neighbours_yields_non_neighbour :
    sortedCells neighbourBugTree.ports.cells ∧
    neighbourBugTree.iterate_neighbours ⟨3, 0⟩ = [⟨1, 0⟩, ⟨1, 1⟩] ∧
    trueNeighbour neighbourBugTree.ports.cells ⟨3, 0⟩ ⟨1, 0⟩ ∧
    ¬trueNeighbour neighbourBugTree.ports.cells ⟨3, 0⟩ ⟨1, 1⟩ := by
  refine ⟨by decide, by decide, by decide, by decide⟩

/-- The C7 failing input: the tree freshly built by `init_nodes` from
a driver pin at `(5,0)` and one user pin at `(0,3)`. -/
def primMissInput : STree := STree.init_nodes true false [⟨5, 0⟩] [[⟨0, 3⟩]]

/-- C7: refuted on the code.  On the fresh two-pin tree
`primMissInput`, `iterate_neighbours (5,0)` yields nothing: the upward
sweep probes `prev_cell (6, 3)` and every port is smaller than the
probe, so the `b < cells.size()` guard of `prev_cell` (line 67)
returns the sentinel instead of the greatest smaller port.
`run_prim_djistrka` therefore terminates with the user node `(0,3)`
still unclaimed (`uphill = none`), contradicting the claimed
post-condition. -/
theorem prim_leaves_node_unreached :
    primMissInput.source = ⟨5, 0⟩ ∧
    sortedCells primMissInput.ports.cells ∧
    nodesLookup primMissInput.nodes ⟨0, 3⟩ = some ⟨GCell.nullCell, 1⟩ ∧
    primMissInput.iterate_neighbours ⟨5, 0⟩ = [] ∧
    primMissInput.run_prim_djistrka (mkRat 1 2) = Except.ok primMissInput ∧
    nodesLookup primMissInput.nodes ⟨0, 3⟩ = some ⟨GCell.nullCell, 1⟩ := by
  refine ⟨by decide, by decide, by decide, by decide, ?_, by decide⟩
  with_unfolding_all decide

/-- C2, counterexample: two equal-cost entries for the distinct nodes
`(0,0) < (1,0)`; `top()` (a maximal element under
`QueueEntry::operator<`) is the entry with the *larger* node, not the
smaller one as claimed. -/
theorem pq_tie_break_counterexample :
    (⟨⟨0, 0⟩, GCell.nullCell, 0, 0⟩ : QueueEntry).cost =
      (⟨⟨1, 0⟩, GCell.nullCell, 0, 0⟩ : QueueEntry).cost ∧
    GCell.ltb ⟨0, 0⟩ ⟨1, 0⟩ = true ∧
    pqTop [⟨⟨0, 0⟩, GCell.nullCell, 0, 0⟩, ⟨⟨1, 0⟩, GCell.nullCell, 0, 0⟩] =
      some ⟨⟨1, 0⟩, GCell.nullCell, 0, 0⟩ ∧
    pqTop [⟨⟨0, 0⟩, GCell.nullCell, 0, 0⟩, ⟨⟨1, 0⟩, GCell.nullCell, 0, 0⟩] ≠
      some ⟨⟨0, 0⟩, GCell.nullCell, 0, 0⟩ := by
  refine ⟨by decide, by decide, by decide, by decide⟩

theorem QueueEntry.ltb_of_eq_cost {a b : QueueEntry} (h : a.cost = b.cost) :
    a.ltb b = a.node.ltb b.node := by
  unfold QueueEntry.ltb
  rw [h]
  simp

/-- The running maximum of the heap-order fold: when every entry
carries one common cost and `e`'s node strictly dominates every other
entry's node, the fold returns `e`. -/
theorem pqFold_max_node : ∀ (t : List QueueEntry) (h e : QueueEntry),
    (e = h ∨ e ∈ t) → (∀ x, (x = h ∨ x ∈ t) → x.cost = e.cost) →
    (∀ x, (x = h ∨ x ∈ t) → x ≠ e → x.node.ltb e.node = true) →
    t.foldl (fun best x => if best.ltb x then x else best) h = e := by
  intro t
  induction t with
  | nil =>
    intro h e hmem _ _
    rcases hmem with h1 | h1
    · exact h1.symm
    · exact absurd h1 (List.not_mem_nil e)
  | cons x t ih =>
    intro h e hmem hcost hmax
    show List.foldl _ (if h.ltb x then x else h) t = e
    have hcx : x.cost = e.cost := hcost x (Or.inr (List.mem_cons_self x t))
    have hch : h.cost = e.cost := hcost h (Or.inl rfl)
    have hnew : (if h.ltb x then x else h) = e ∨ e ∈ t := by
      rcases hmem with he | he
      · by_cases hxe : x = e
        · subst hxe
          left
          split <;> simp [he]
        · have hx : x.node.ltb e.node = true := hmax x (Or.inr (List.mem_cons_self x t)) hxe
          have : h.ltb x = false := by
            rw [QueueEntry.ltb_of_eq_cost (by rw [hch, hcx])]
            rw [he] at hx
            exact GCell.not_ltb_of_ltb hx
          rw [this]
          simp [he]
      · rcases List.mem_cons.mp he with he1 | he1
        · by_cases hhe : h = e
          · left
            split <;> simp [he1, hhe]
          · have hh : h.node.ltb e.node = true := hmax h (Or.inl rfl) hhe
            have : h.ltb x = true := by
              rw [QueueEntry.ltb_of_eq_cost (by rw [hch, hcx])]
              rw [he1] at hh
              exact hh
            rw [this]
            exact Or.inl he1.symm
        · exact Or.inr he1
    have hcost2 : ∀ y, (y = (if h.ltb x then x else h) ∨ y ∈ t) → y.cost = e.cost := by
      intro y hy
      rcases hy with hy | hy
      · rw [hy]
        split
        · exact hcx
        · exact hch
      · exact hcost y (Or.inr (List.mem_cons_of_mem x hy))
    have hmax2 : ∀ y, (y = (if h.ltb x then x else h) ∨ y ∈ t) → y ≠ e →
        y.node.ltb e.node = true := by
      intro y hy hne
      rcases hy with hy | hy
      · subst hy
        by_cases hlt : h.ltb x = true
        · rw [if_pos hlt] at hne ⊢
          exact hmax x (Or.inr (List.mem_cons_self x t)) hne
        · rw [if_neg hlt] at hne ⊢
          exact hmax h (Or.inl rfl) hne
      · exact hmax y (Or.inr (List.mem_cons_of_mem x hy)) hne
    have hmem2 : e = (if h.ltb x then x else h) ∨ e ∈ t := by
      rcases hnew with h1 | h1
      · exact Or.inl h1.symm
      · exact Or.inr h1
    exact ih (if h.ltb x then x else h) e hmem2 hcost2 hmax2

/-- C2, amended: on equal costs the entry with the *larger* node
surfaces first — `operator<` inverts the cost comparison for the
max-heap but not the node tie-break.  For any queue state whose
entries all carry one common cost, `top()` returns the entry whose
node dominates the others'; in particular of two equal-cost entries
for distinct nodes the larger node wins. -/
theorem pq_top_equal_cost_max (l : List QueueEntry) (e : QueueEntry) (he : e ∈ l)
    (hcost : ∀ x ∈ l, x.cost = e.cost)
    (hmax : ∀ x ∈ l, x ≠ e → x.node.ltb e.node = true) :
    pqTop l = some e := by
  cases l with
  | nil => exact absurd he (List.not_mem_nil e)
  | cons h t =>
    show some (t.foldl (fun best x => if best.ltb x then x else best) h) = some e
    congr 1
    apply pqFold_max_node t h e
    · rcases List.mem_cons.mp he with h1 | h1
      · exact Or.inl h1
      · exact Or.inr h1
    · intro x hx
      rcases hx with hx | hx
      · exact hcost x (by rw [hx]; exact List.mem_cons_self h t)
      · exact hcost x (List.mem_cons_of_mem h hx)
    · intro x hx hne
      rcases hx with hx | hx
      · exact hmax x (by rw [hx]; exact List.mem_cons_self h t) hne
      · exact hmax x (List.mem_cons_of_mem h hx) hne

/-- C2, witness for the amended theorem: the two-entry equal-cost
queue of the counterexample, in both insertion orders. -/
theorem pq_top_equal_cost_max_witness :
    pqTop [⟨⟨0, 0⟩, GCell.nullCell, 0, 0⟩, ⟨⟨1, 0⟩, GCell.nullCell, 0, 0⟩] =
      some ⟨⟨1, 0⟩, GCell.nullCell, 0, 0⟩ ∧
    pqTop [⟨⟨1, 0⟩, GCell.nullCell, 0, 0⟩, ⟨⟨0, 0⟩, GCell.nullCell, 0, 0⟩] =
      some ⟨⟨1, 0⟩, GCell.nullCell, 0, 0⟩ :=
  ⟨pq_top_equal_cost_max [⟨⟨0, 0⟩, GCell.nullCell, 0, 0⟩, ⟨⟨1, 0⟩, GCell.nullCell, 0, 0⟩]
      ⟨⟨1, 0⟩, GCell.nullCell, 0, 0⟩ (by decide) (by decide) (by decide),
    pq_top_equal_cost_max [⟨⟨1, 0⟩, GCell.nullCell, 0, 0⟩, ⟨⟨0, 0⟩, GCell.nullCell, 0, 0⟩]
      ⟨⟨1, 0⟩, GCell.nullCell, 0, 0⟩ (by decide) (by decide) (by decide)⟩

/-- C5, counterexample: pushing the same cell twice and sorting leaves
a duplicate — the C++ `do_sort` (lines 49-53) only calls `std::sort`
and never deduplicates. -/
theorem do_sort_keeps_duplicates :
    ((GCellSet.empty.clear.push ⟨0, 0⟩).push ⟨0, 0⟩).do_sort.cells = [⟨0, 0⟩, ⟨0, 0⟩] ∧
    ¬((GCellSet.empty.clear.push ⟨0, 0⟩).push ⟨0, 0⟩).do_sort.cells.Nodup := by
  refine ⟨by decide, by decide⟩

instance : IsTotal GCell (fun a b => a.leb b = true) := ⟨GCell.leb_total⟩

instance : IsTrans GCell (fun a b => a.leb b = true) := ⟨fun _ _ _ => GCell.leb_trans⟩

/-- C5, amended: after `do_sort` the sequence is sorted in the GCell
order and the set is marked clean, for every preceding sequence of
`clear`/`push` operations — but duplicate pushes survive the sort. -/
theorem do_sort_sorts_and_cleans (s₀ : GCellSet) (ops : List SetOp) :
    (applySetOps s₀ ops).do_sort.dirty = false ∧
    sortedCells (applySetOps s₀ ops).do_sort.cells := by
  constructor
  · rfl
  · exact List.sorted_insertionSort _ _

/-- C5, witness for the amended theorem: a clear followed by three
pushes, one duplicated. -/
theorem do_sort_sorts_and_cleans_witness :
    (applySetOps GCellSet.empty
      [SetOp.clear, SetOp.push ⟨2, 1⟩, SetOp.push ⟨0, 0⟩, SetOp.push ⟨2, 1⟩]).do_sort.dirty =
      false ∧
    sortedCells (applySetOps GCellSet.empty
      [SetOp.clear, SetOp.push ⟨2, 1⟩, SetOp.push ⟨0, 0⟩, SetOp.push ⟨2, 1⟩]).do_sort.cells :=
  do_sort_sorts_and_cleans GCellSet.empty
    [SetOp.clear, SetOp.push ⟨2, 1⟩, SetOp.push ⟨0, 0⟩, SetOp.push ⟨2, 1⟩]

/-- The C3 failing input: source `(0,0)` with children `(1,0)` and
`(10,0)`, and `(2,0)` below `(10,0)`; with `α = 1/2` exactly one
improving move exists (regardless of iteration order). -/
def flipStaleInput : STree :=
  { source := ⟨0, 0⟩
    nodes := [(⟨0, 0⟩, { port_count := 1 }),
              (⟨1, 0⟩, { uphill := ⟨0, 0⟩, port_count := 1 }),
              (⟨10, 0⟩, { uphill := ⟨0, 0⟩, port_count := 1 }),
              (⟨2, 0⟩, { uphill := ⟨10, 0⟩, port_count := 1 })]
    ports := ⟨[⟨0, 0⟩, ⟨1, 0⟩, ⟨2, 0⟩, ⟨10, 0⟩], false⟩
    box := ⟨0, 0, 10, 0⟩ }

/-- The auxiliary-table state `do_edge_flips` builds on
`flipStaleInput` before entering its loop. -/
def flipStaleState : FlipState :=
  { tree := flipStaleInput
    leaves := flipStaleInput.get_leaves
    tlc := [(⟨1, 0⟩, 0), (⟨2, 0⟩, 0), (⟨10, 0⟩, 1), (⟨0, 0⟩, 3)] }

/-- The unique improving move found on `flipStaleInput` with
`α = 1/2`. -/
def flipStaleMove : BestMove :=
  { delta := mkRat (-27) 2
    rem := ⟨⟨0, 0⟩, ⟨10, 0⟩⟩
    add := ⟨⟨1, 0⟩, ⟨2, 0⟩⟩
    flp := ⟨⟨10, 0⟩, ⟨2, 0⟩⟩ }

/-- The state right after `do_edge_flips` commits that move: the
`leaves` table was kept in sync, but `tlc` is untouched (the C++
comment at line 382 reads `TODO: update cost structures`). -/
def flipStaleAfter : FlipState :=
  { tree := { flipStaleInput with
      nodes := [(⟨0, 0⟩, { port_count := 1 }),
                (⟨1, 0⟩, { uphill := ⟨0, 0⟩, port_count := 1 }),
                (⟨10, 0⟩, { uphill := ⟨2, 0⟩, port_count := 1 }),
                (⟨2, 0⟩, { uphill := ⟨1, 0⟩, port_count := 1 })] }
    leaves := [(⟨0, 0⟩, [⟨1, 0⟩]), (⟨10, 0⟩, []), (⟨1, 0⟩, [⟨2, 0⟩]), (⟨2, 0⟩, [⟨10, 0⟩])]
    tlc := [(⟨1, 0⟩, 0), (⟨2, 0⟩, 0), (⟨10, 0⟩, 1), (⟨0, 0⟩, 3)] }

/-- C3: refuted on the code.  `do_edge_flips` never updates
`total_leaf_count` after committing a move, so right after the first
committed move on `flipStaleInput` the table still says node `(1,0)`
has `0` descendants while the mutated tree gives it `2` (and `(10,0)`
still shows `1` against an actual `0`).  The `leaves` half of the
claim does hold for this commit. -/
theorem edge_flip_stale_leaf_count :
    rootedTree flipStaleInput ∧
    get_total_leaf_count flipStaleInput.get_leaves (flipStaleInput.nodes.length + 1)
      flipStaleInput.source [] = Except.ok (3, flipStaleState.tlc) ∧
    searchMoves flipStaleState (mkRat 1 2) = Except.ok flipStaleMove ∧
    flipStaleMove.delta < 0 ∧
    flipCommit flipStaleState flipStaleMove = Except.ok flipStaleAfter ∧
    flipStaleAfter.tlc = flipStaleState.tlc ∧
    assocLookup flipStaleAfter.tlc ⟨1, 0⟩ = some 0 ∧
    descendantCount flipStaleAfter.tree.nodes ⟨1, 0⟩ = 2 ∧
    assocLookup flipStaleAfter.tlc ⟨10, 0⟩ = some 1 ∧
    descendantCount flipStaleAfter.tree.nodes ⟨10, 0⟩ = 0 := by
  refine ⟨by decide, by decide, ?_, by decide, ?_, by decide, by decide, by decide,
    by decide, by decide⟩
  · with_unfolding_all decide
  · with_unfolding_all decide

/-- The C4 failing input: source `(0,0)` with children `(4,0)` and
`(0,6)`, and `(1,1)` below `(0,6)`. -/
def flipObjInput : STree :=
  { source := ⟨0, 0⟩
    nodes := [(⟨0, 0⟩, { port_count := 1 }),
              (⟨4, 0⟩, { uphill := ⟨0, 0⟩, port_count := 1 }),
              (⟨0, 6⟩, { uphill := ⟨0, 0⟩, port_count := 1 }),
              (⟨1, 1⟩, { uphill := ⟨0, 6⟩, port_count := 1 })]
    ports := ⟨[⟨0, 0⟩, ⟨4, 0⟩, ⟨1, 1⟩, ⟨0, 6⟩], false⟩
    box := ⟨0, 0, 4, 6⟩ }

/-- The tree `do_edge_flips` produces on `flipObjInput` with
`α = 1/2` (one move committed). -/
def flipObjOutput : STree :=
  { flipObjInput with
    nodes := [(⟨0, 0⟩, { port_count := 1 }),
              (⟨4, 0⟩, { uphill := ⟨0, 0⟩, port_count := 1 }),
              (⟨0, 6⟩, { uphill := ⟨1, 1⟩, port_count := 1 }),
              (⟨1, 1⟩, { uphill := ⟨4, 0⟩, port_count := 1 })] }

/-- C4: refuted on the code.  With `α = 1/2 ∈ [0,1]`, `do_edge_flips`
on `flipObjInput` commits one move and *raises* the weighted objective
`α·Σpath + (1−α)·Σlen` from `19` to `20`: the delta formula of lines
358-363 omits the path-length growth `dist(u, new_src) · |subtree(v)|`
that the move inflicts on the subtree re-rooted under `new_src`, so a
move with negative computed delta can worsen the true objective. -/
theorem edge_flip_increases_objective :
    rootedTree flipObjInput ∧
    (0 : ℚ) ≤ mkRat 1 2 ∧ mkRat 1 2 ≤ 1 ∧
    flipObjInput.objective (mkRat 1 2) = some 19 ∧
    flipObjInput.do_edge_flips (mkRat 1 2) 10 = Except.ok (flipObjOutput, 1) ∧
    flipObjOutput.objective (mkRat 1 2) = some 20 ∧
    (19 : ℚ) < 20 := by
  refine ⟨by decide, by decide, by decide, ?_, ?_, ?_, by decide⟩
  · with_unfolding_all decide
  · with_unfolding_all decide
  · with_unfolding_all decide

/-! ### C9: the steinerisation fan-out assertion -/

theorem pure_ne_error {α : Type} (a : α) (e : FelineErr) :
    (pure a : Except FelineErr α) ≠ Except.error e := by
  intro h
  exact Except.noConfusion h

theorem bind_ne_error {α β : Type} {e : FelineErr} {x : Except FelineErr α}
    {f : α → Except FelineErr β} (hx : x ≠ Except.error e)
    (hf : ∀ a, f a ≠ Except.error e) : (x >>= f) ≠ Except.error e := by
  cases x with
  | error e' =>
    show (Except.error e' : Except FelineErr β) ≠ Except.error e
    intro h
    injection h with h'
    exact hx (by rw [h'])
  | ok a => exact hf a

theorem foldlM_ne_error {β γ : Type} {e : FelineErr} (f : γ → β → Except FelineErr γ)
    (hf : ∀ acc x, f acc x ≠ Except.error e) :
    ∀ (l : List β) (acc : γ), l.foldlM f acc ≠ Except.error e := by
  intro l
  induction l with
  | nil => intro acc; exact pure_ne_error _ _
  | cons x xs ih =>
    intro acc
    rw [List.foldlM_cons]
    exact bind_ne_error (hf acc x) (fun a => ih a)

theorem error_ne_fanout {α : Type} {e : FelineErr} (h : e ≠ FelineErr.fanoutExceeded) :
    (Except.error e : Except FelineErr α) ≠ Except.error FelineErr.fanoutExceeded := by
  intro hcon
  injection hcon with h'
  exact h h'

theorem get_dir_extent_ne_fanout (n o : GCell) :
    get_dir_extent n o ≠ Except.error FelineErr.fanoutExceeded := by
  unfold get_dir_extent
  split_ifs
  any_goals exact pure_ne_error _ _
  exact error_ne_fanout (by intro h; exact FelineErr.noConfusion h)

theorem iterEdges_ne_fanout (hs : HvwState) (c : GCell) :
    iterEdges hs c ≠ Except.error FelineErr.fanoutExceeded := by
  unfold iterEdges
  split
  · intro h; injection h with h'; exact FelineErr.noConfusion h'
  · split
    · intro h; injection h with h'; exact FelineErr.noConfusion h'
    · exact pure_ne_error _ _

theorem nodesAtSetUphill_ne_fanout (nodes : List (GCell × TreeNode)) (c u : GCell) :
    nodesAtSetUphill nodes c u ≠ Except.error FelineErr.fanoutExceeded := by
  unfold nodesAtSetUphill
  split
  · intro h; injection h with h'; exact FelineErr.noConfusion h'
  · exact pure_ne_error _ _

theorem leavesAtModify_ne_fanout (lv : List (GCell × List GCell)) (c : GCell)
    (f : List GCell → List GCell) :
    leavesAtModify lv c f ≠ Except.error FelineErr.fanoutExceeded := by
  unfold leavesAtModify
  split
  · intro h; injection h with h'; exact FelineErr.noConfusion h'
  · exact pure_ne_error _ _

theorem cleanup_overlap_ne_fanout (hs : HvwState) (node : GCell) :
    cleanup_overlap hs node ≠ Except.error FelineErr.fanoutExceeded := by
  unfold cleanup_overlap
  apply bind_ne_error (iterEdges_ne_fanout hs node)
  intro outer
  apply bind_ne_error
  · apply foldlM_ne_error
    intro acc ab
    apply bind_ne_error (get_dir_extent_ne_fanout _ _)
    intro deA
    apply bind_ne_error (iterEdges_ne_fanout _ _)
    intro inner
    apply foldlM_ne_error
    intro acc2 bb
    split_ifs <;>
      first
        | exact pure_ne_error _ _
        | exact error_ne_fanout (by intro h; exact FelineErr.noConfusion h)
        | (apply bind_ne_error (get_dir_extent_ne_fanout _ _)
           intro deB
           split_ifs <;>
             first
               | exact pure_ne_error _ _
               | exact error_ne_fanout (by intro h; exact FelineErr.noConfusion h)
               | (repeat'
                   first
                     | exact pure_ne_error _ _
                     | (apply bind_ne_error (nodesAtSetUphill_ne_fanout _ _ _); intro _x)
                     | (apply bind_ne_error (leavesAtModify_ne_fanout _ _ _); intro _x)))
  · intro r
    exact pure_ne_error _ _

/-- C9: confirmed.  When `processNode` reaches the edge partition (the
node is present and `iter_edges` succeeds), it aborts with the
fan-out assertion (`NPNR_ASSERT(edges.size() < 10)`, line 529) exactly
when the node has 10 or more flexible (non-axis-aligned) incident
edges; with fewer than 10 that assertion branch is unreachable (no
later step of the node processing can produce the fan-out abort), and
the `2^k` enumeration over orientation masks is well defined. -/
theorem hvw_fanout_assert (hs : HvwState) (node : GCell) (tn : TreeNode)
    (hn : nodesLookup hs.tree.nodes node = some tn)
    (el : List (GCell × Bool)) (hie : iterEdges hs node = Except.ok el) :
    processNode hs node = Except.error FelineErr.fanoutExceeded ↔
      10 ≤ ((el.filter (fun p => ¬(p.1.x = node.x ∨ p.1.y = node.y))).map
        (fun p => p.1)).length := by
  have hbody : processNode hs node =
      (if ((el.filter (fun p => ¬(p.1.x = node.x ∨ p.1.y = node.y))).map
            (fun p => p.1)).isEmpty then pure hs
      else if ¬(((el.filter (fun p => ¬(p.1.x = node.x ∨ p.1.y = node.y))).map
            (fun p => p.1)).length < 10) then Except.error FelineErr.fanoutExceeded
      else cleanup_overlap
        (commitChoice hs node tn.uphill
          ((el.filter (fun p => ¬(p.1.x = node.x ∨ p.1.y = node.y))).map (fun p => p.1))
          (bestChoice node
            ((el.filter (fun p => p.1.x = node.x ∨ p.1.y = node.y)).map (fun p => p.1))
            ((el.filter (fun p => ¬(p.1.x = node.x ∨ p.1.y = node.y))).map (fun p => p.1))))
        node) := by
    unfold processNode
    rw [hn, hie]
    rfl
  rw [hbody]
  split_ifs with h1 h2
  · constructor
    · intro h
      exact absurd h (pure_ne_error _ _)
    · intro h
      rw [List.isEmpty_iff] at h1
      rw [h1] at h
      simp at h
  · constructor
    · intro h
      exact absurd h (cleanup_overlap_ne_fanout _ _)
    · intro h
      exact absurd h (by omega)
  · constructor
    · intro _
      omega
    · intro _
      rfl

/-- The C9 abort input: a root with ten diagonal children, all edges
flexible. -/
def hvwFanoutInput : STree :=
  { source := ⟨0, 0⟩
    nodes := (⟨0, 0⟩, ({ port_count := 1 } : TreeNode)) ::
      (List.range 10).map (fun i =>
        ((⟨i + 1, i + 1⟩ : GCell), ({ uphill := ⟨0, 0⟩, port_count := 1 } : TreeNode)))
    ports := ⟨⟨0, 0⟩ :: (List.range 10).map (fun i => ⟨i + 1, i + 1⟩), false⟩
    box := ⟨0, 0, 10, 10⟩ }

/-- C9, witness: on `hvwFanoutInput` the root has 10 flexible incident
edges, `processNode` hits the fan-out assertion, and the whole
`steinerise_hvw` pass aborts with it. -/
theorem hvw_fanout_assert_witness :
    processNode { tree := hvwFanoutInput, leaves := hvwFanoutInput.get_leaves } ⟨0, 0⟩ =
      Except.error FelineErr.fanoutExceeded ∧
    hvwFanoutInput.steinerise_hvw = Except.error FelineErr.fanoutExceeded := by
  constructor
  · exact (hvw_fanout_assert { tree := hvwFanoutInput, leaves := hvwFanoutInput.get_leaves }
      ⟨0, 0⟩ { port_count := 1 } (by decide)
      ((List.range 10).map (fun i => ((⟨i + 1, i + 1⟩ : GCell), false))) (by decide)).mpr
      (by decide)
  · decide

/-! ### C10: the query cell is never yielded to the callback -/

theorem prev_y_cases (s : GCellSet) (hs : sortedCells s.cells)
    (hx : ∀ p ∈ s.cells, 0 ≤ p.x) (y : Int) :
    s.prev_y y = -1 ∨ s.prev_y y < y := by
  unfold GCellSet.prev_y
  split
  · exact Or.inl rfl
  · next hnn =>
    right
    rcases prev_cell_spec s ⟨0, y⟩ hs with hnull | ⟨hmem, hlt, -⟩
    · exact absurd hnull hnn
    · rw [GCell.ltb_iff] at hlt
      have := hx _ hmem
      have hpx : ({ x := 0, y := y } : GCell).x = 0 := rfl
      have hpy : ({ x := 0, y := y } : GCell).y = y := rfl
      rcases hlt with h | ⟨-, h⟩
      · omega
      · omega

theorem next_y_cases (s : GCellSet) (hs : sortedCells s.cells)
    (hx : ∀ p ∈ s.cells, p.x ≤ 32767) (y : Int) :
    s.next_y y = -1 ∨ y < s.next_y y := by
  unfold GCellSet.next_y
  split
  · exact Or.inl rfl
  · next hnn =>
    right
    rcases next_cell_spec s ⟨32767, y⟩ hs with hnull | ⟨hmem, hlt, -⟩
    · exact absurd hnull hnn
    · rw [GCell.ltb_iff] at hlt
      have := hx _ hmem
      have hpx : ({ x := 32767, y := y } : GCell).x = 32767 := rfl
      have hpy : ({ x := 32767, y := y } : GCell).y = y := rfl
      rcases hlt with h | ⟨-, h⟩
      · omega
      · omega

theorem sweepStepL_mem_y (ports : GCellSet) (cx y x0 : Int) :
    ∀ g ∈ (sweepStepL ports cx y x0).1, g.y = y := by
  intro g hg
  unfold sweepStepL at hg
  split_ifs at hg with h1 h2
  · rw [List.mem_singleton] at hg
    rw [hg]
    exact h2.1
  · exact absurd hg (List.not_mem_nil g)
  · exact absurd hg (List.not_mem_nil g)

theorem sweepStepR_mem_y (ports : GCellSet) (cx y x1 : Int) :
    ∀ g ∈ (sweepStepR ports cx y x1).1, g.y = y := by
  intro g hg
  unfold sweepStepR at hg
  split_ifs at hg with h1 h2
  · rw [List.mem_singleton] at hg
    rw [hg]
    exact h2.1
  · exact absurd hg (List.not_mem_nil g)
  · exact absurd hg (List.not_mem_nil g)

theorem sweepStep_mem_y (ports : GCellSet) (cx y x0 x1 : Int) :
    ∀ g ∈ (sweepStep ports cx y x0 x1).1, g.y = y := by
  intro g hg
  rcases List.mem_append.mp hg with h | h
  · exact sweepStepL_mem_y ports cx y x0 g h
  · exact sweepStepR_mem_y ports cx y x1 g h

/-- Every cell yielded by a sweep lies in a row satisfying an
invariant `P` that excludes the query row; hence the query cell is
never yielded. -/
theorem sweepLoop_avoid (ports : GCellSet) (nextRow : Int → Int) (cx : Int) (c : GCell)
    (P : Int → Prop)
    (hstep : ∀ y, P y → y ≠ -1 → P (nextRow y))
    (hne : ∀ y, P y → y ≠ -1 → y ≠ c.y) :
    ∀ (fuel : Nat) (y x0 x1 : Int), P y → c ∉ sweepLoop ports nextRow cx fuel y x0 x1 := by
  intro fuel
  induction fuel with
  | zero =>
    intro y x0 x1 hP
    exact List.not_mem_nil c
  | succ fuel ih =>
    intro y x0 x1 hP
    have heq : sweepLoop ports nextRow cx (fuel + 1) y x0 x1 =
        if y ≠ -1 ∧ (x0 ≤ cx ∨ x1 > cx) then
          (sweepStep ports cx y x0 x1).1 ++
            sweepLoop ports nextRow cx fuel (nextRow y)
              (sweepStep ports cx y x0 x1).2.1 (sweepStep ports cx y x0 x1).2.2
        else [] := rfl
    rw [heq]
    split
    · next hcond =>
      intro hmem
      rcases List.mem_append.mp hmem with hmem | hmem
      · have hy := sweepStep_mem_y ports cx y x0 x1 c hmem
        exact hne y hP hcond.1 (by rw [← hy])
      · exact ih (nextRow y) _ _ (hstep y hP hcond.1) hmem
    · exact List.not_mem_nil c

/-- C10: confirmed.  On a clean port set whose cells have int16-valid
nonnegative `x` coordinates, `iterate_neighbours c` with `c.x ≥ 0`
never passes the query cell itself to the callback — the same-row
candidates are strictly smaller/greater than `c`, and all sweep rows
lie strictly below or strictly above `c`'s row. -/
theorem iterate_neighbours_not_self (st : STree) (c : GCell)
    (hs : sortedCells st.ports.cells)
    (hx : ∀ p ∈ st.ports.cells, 0 ≤ p.x ∧ p.x ≤ 32767)
    (hc : 0 ≤ c.x) :
    c ∉ st.iterate_neighbours c := by
  intro hmem
  unfold STree.iterate_neighbours at hmem
  rcases List.mem_append.mp hmem with hmem | hup
  · rcases List.mem_append.mp hmem with hmem | hdown
    · -- same-row candidates
      rcases List.mem_append.mp hmem with hprev | hnext
      · have hcp : c = st.ports.prev_cell c := by
          rcases Decidable.em ((st.ports.prev_cell c).y = c.y) with h | h
          · rw [if_pos h] at hprev
            exact List.mem_singleton.mp hprev
          · rw [if_neg h] at hprev
            exact absurd hprev (List.not_mem_nil c)
        rcases prev_cell_spec st.ports c hs with hnull | ⟨-, hlt, -⟩
        · rw [hnull] at hcp
          have : c.x = -1 := by rw [hcp]; rfl
          omega
        · rw [← hcp, GCell.ltb_irrefl] at hlt
          exact Bool.noConfusion hlt
      · have hcp : c = st.ports.next_cell c := by
          rcases Decidable.em ((st.ports.next_cell c).y = c.y) with h | h
          · rw [if_pos h] at hnext
            exact List.mem_singleton.mp hnext
          · rw [if_neg h] at hnext
            exact absurd hnext (List.not_mem_nil c)
        rcases next_cell_spec st.ports c hs with hnull | ⟨-, hlt, -⟩
        · rw [hnull] at hcp
          have : c.x = -1 := by rw [hcp]; rfl
          omega
        · rw [← hcp, GCell.ltb_irrefl] at hlt
          exact Bool.noConfusion hlt
    · -- downward sweep: rows strictly below c.y
      refine sweepLoop_avoid st.ports st.ports.prev_y c.x c
        (fun y => y < c.y ∨ y = -1) ?_ ?_ _ _ _ _ ?_ hdown
      · intro y hP hy
        rcases prev_y_cases st.ports hs (fun p hp => (hx p hp).1) y with h | h
        · exact Or.inr h
        · rcases hP with hP | hP
          · exact Or.inl (lt_trans h hP)
          · exact absurd hP hy
      · intro y hP hy
        rcases hP with hP | hP
        · omega
        · exact absurd hP hy
      · rcases prev_y_cases st.ports hs (fun p hp => (hx p hp).1) c.y with h | h
        · exact Or.inr h
        · exact Or.inl h
  · -- upward sweep: rows strictly above c.y
    refine sweepLoop_avoid st.ports st.ports.next_y c.x c
      (fun y => c.y < y ∨ y = -1) ?_ ?_ _ _ _ _ ?_ hup
    · intro y hP hy
      rcases next_y_cases st.ports hs (fun p hp => (hx p hp).2) y with h | h
      · exact Or.inr h
      · rcases hP with hP | hP
        · exact Or.inl (lt_trans hP h)
        · exact absurd hP hy
    · intro y hP hy
      rcases hP with hP | hP
      · omega
      · exact absurd hP hy
    · rcases next_y_cases st.ports hs (fun p hp => (hx p hp).2) c.y with h | h
      · exact Or.inr h
      · exact Or.inl h

/-- C10, witness: the port set `{(0,0)}` with the query cell `(0,0)`
itself a member — no callback receives it. -/
theorem iterate_neighbours_not_self_witness :
    (⟨0, 0⟩ : GCell) ∉
      STree.iterate_neighbours
        { source := ⟨0, 0⟩, nodes := [(⟨0, 0⟩, { port_count := 1 })],
          ports := ⟨[⟨0, 0⟩], false⟩, box := ⟨0, 0, 0, 0⟩ } ⟨0, 0⟩ :=
  iterate_neighbours_not_self
    { source := ⟨0, 0⟩, nodes := [(⟨0, 0⟩, { port_count := 1 })],
      ports := ⟨[⟨0, 0⟩], false⟩, box := ⟨0, 0, 0, 0⟩ } ⟨0, 0⟩
    (by decide) (by decide) (by decide)

/-! ### C8: emptiness is preserved and harmless -/

/-- The tree `init_nodes` returns when the driver is absent or
vetoed. -/
def emptySTree : STree :=
  { source := GCell.nullCell, nodes := [], ports := ⟨[], false⟩, box := BoundingBox.empty }

/-- The initial Prim-Dijkstra state on the empty tree. -/
def emptyPrim : PrimState :=
  { tree := emptySTree, best := [(GCell.nullCell, 0)], queue := [] }

theorem init_nodes_empty (dp sd : Bool) (dc : List GCell) (uc : List (List GCell))
    (h : dp = false ∨ sd = true) :
    STree.init_nodes dp sd dc uc = emptySTree := by
  have hcond : (dp && !sd) = false := by rcases h with h | h <;> simp [h]
  unfold STree.init_nodes
  rw [hcond]
  rfl

/-- On the empty tree the same-row candidates are both the sentinel,
whose row (`-1`) coincides with the sentinel source's row, so the
callback runs on the sentinel twice — and is skipped both times by the
`best_cost[source] = 0` guard, because `node_cost = α·0 + 0 ≥ 0`. -/
theorem expandStep_empty (alpha : ℚ) :
    expandStep alpha 0 GCell.nullCell emptyPrim GCell.nullCell = pure emptyPrim := by
  unfold expandStep
  rw [if_pos]
  rw [show assocLookup emptyPrim.best GCell.nullCell = some 0 from rfl]
  rw [show GCell.mdist GCell.nullCell GCell.nullCell = 0 from rfl]
  simp

theorem doExpand_empty (alpha : ℚ) :
    doExpand alpha 0 GCell.nullCell emptyPrim = Except.ok emptyPrim := by
  unfold doExpand
  rw [show emptyPrim.tree.iterate_neighbours GCell.nullCell =
    [GCell.nullCell, GCell.nullCell] from rfl]
  rw [List.foldlM_cons, expandStep_empty alpha]
  show List.foldlM _ _ _ = _
  rw [List.foldlM_cons, expandStep_empty alpha]
  rfl

theorem prim_empty (alpha : ℚ) :
    emptySTree.run_prim_djistrka alpha = Except.ok emptySTree := by
  unfold STree.run_prim_djistrka
  show (doExpand alpha 0 GCell.nullCell emptyPrim >>= fun s =>
    primLoop alpha 9 s >>= fun s => pure s.tree) = Except.ok emptySTree
  rw [doExpand_empty alpha]
  show (primLoop alpha 9 emptyPrim >>= fun s => pure s.tree) = Except.ok emptySTree
  rfl

theorem flips_empty (alpha : ℚ) (fuel : Nat) :
    emptySTree.do_edge_flips alpha (fuel + 1) = Except.ok (emptySTree, 0) := by
  unfold STree.do_edge_flips
  show (get_total_leaf_count [] 1 GCell.nullCell [] >>= fun r =>
    flipLoop alpha (fuel + 1) { tree := emptySTree, leaves := [], tlc := r.2 } 0 >>=
      fun fm => pure (fm.1.tree, fm.2)) = Except.ok (emptySTree, 0)
  rw [show (get_total_leaf_count [] 1 GCell.nullCell [] :
      Except FelineErr (Int × List (GCell × Int))) =
    Except.ok (0, [(GCell.nullCell, 0)]) from rfl]
  show (flipLoop alpha (fuel + 1)
      { tree := emptySTree, leaves := [], tlc := [(GCell.nullCell, 0)] } 0 >>=
      fun fm => pure (fm.1.tree, fm.2)) = Except.ok (emptySTree, 0)
  show ((searchMoves { tree := emptySTree, leaves := [], tlc := [(GCell.nullCell, 0)] } alpha >>=
      fun bm => if bm.delta < 0 then
        (flipCommit { tree := emptySTree, leaves := [], tlc := [(GCell.nullCell, 0)] } bm >>=
          fun fs => flipLoop alpha fuel fs 1)
      else pure ({ tree := emptySTree, leaves := [], tlc := [(GCell.nullCell, 0)] }, 0)) >>=
      fun fm => pure (fm.1.tree, fm.2)) = Except.ok (emptySTree, 0)
  rw [show searchMoves { tree := emptySTree, leaves := [], tlc := [(GCell.nullCell, 0)] } alpha =
    Except.ok { delta := 0 } from rfl]
  show ((if ({ delta := 0 } : BestMove).delta < 0 then
      (flipCommit { tree := emptySTree, leaves := [], tlc := [(GCell.nullCell, 0)] }
          { delta := 0 } >>=
        fun fs => flipLoop alpha fuel fs 1)
    else pure ({ tree := emptySTree, leaves := [], tlc := [(GCell.nullCell, 0)] }, 0)) >>=
    fun fm => pure (fm.1.tree, fm.2)) = Except.ok (emptySTree, 0)
  rw [if_neg (show ¬(({ delta := 0 } : BestMove).delta < 0) from lt_irrefl 0)]
  rfl

theorem hvw_empty : emptySTree.steinerise_hvw = Except.ok emptySTree := rfl

/-- C8: confirmed.  When the driver is absent (`dp = false`) or vetoed
(`sd = true`), `init_nodes` returns the empty tree — no nodes, no
ports, user pins not added — and each of `run_prim_djistrka`,
`do_edge_flips` and `steinerise_hvw` on that tree terminates normally
with the nodes still empty and no assertion hit, for every `α` and
every positive flip-loop fuel. -/
theorem empty_tree_passes_noop (dp sd : Bool) (dc : List GCell) (uc : List (List GCell))
    (alpha : ℚ) (fuel : Nat) (h : dp = false ∨ sd = true) :
    STree.init_nodes dp sd dc uc = emptySTree ∧
    (STree.init_nodes dp sd dc uc).nodes = [] ∧
    (STree.init_nodes dp sd dc uc).ports.cells = [] ∧
    (STree.init_nodes dp sd dc uc).run_prim_djistrka alpha = Except.ok emptySTree ∧
    (STree.init_nodes dp sd dc uc).do_edge_flips alpha (fuel + 1) =
      Except.ok (emptySTree, 0) ∧
    (STree.init_nodes dp sd dc uc).steinerise_hvw = Except.ok emptySTree := by
  have hi := init_nodes_empty dp sd dc uc h
  rw [hi]
  exact ⟨rfl, rfl, rfl, prim_empty alpha, flips_empty alpha fuel, hvw_empty⟩

/-- C8, witness. -/
theorem empty_tree_passes_noop_witness :
    STree.init_nodes false false [⟨1, 2⟩] [[⟨3, 4⟩]] = emptySTree ∧
    (STree.init_nodes false false [⟨1, 2⟩] [[⟨3, 4⟩]]).nodes = [] ∧
    (STree.init_nodes false false [⟨1, 2⟩] [[⟨3, 4⟩]]).ports.cells = [] ∧
    (STree.init_nodes false false [⟨1, 2⟩] [[⟨3, 4⟩]]).run_prim_djistrka 0 =
      Except.ok emptySTree ∧
    (STree.init_nodes false false [⟨1, 2⟩] [[⟨3, 4⟩]]).do_edge_flips 0 1 =
      Except.ok (emptySTree, 0) ∧
    (STree.init_nodes false false [⟨1, 2⟩] [[⟨3, 4⟩]]).steinerise_hvw =
      Except.ok emptySTree :=
  empty_tree_passes_noop false false [⟨1, 2⟩] [[⟨3, 4⟩]] 0 0 (Or.inl rfl)

end Feline
